import Mathlib

/-!
# brename: recursive batch renaming by regular expression

A shallow embedding of `brename.go` (functions `Rename`, `BatchRename`, `init`
and `main`) together with the services it calls:

* `path/filepath` (`Split`, `Join`, `Clean`) for Unix paths,
* `regexp` as an abstract compiled pattern (`Match`, `ReplaceAllString`),
* the operating system (`ioutil.ReadFile`, `ioutil.ReadDir`, `os.Rename`) as an
  abstract interface `OS`, with one concrete instance `unixOS`, a small
  in-memory Unix-like file system.

Stateful code is written in state-passing style: every function takes the
current file-system state and returns the new one together with the list of
events it produced (system calls attempted, lines printed, and the places where
`Rename` was applied).
-/

namespace Brename

/-! ## `path/filepath` on Unix -/

/-- The path separator `filepath.Separator` on Unix. -/
def Separator : Char := '/'

/-- The predicate `os.IsPathSeparator`. -/
def IsPathSeparator (c : Char) : Bool := c == Separator

/-- The elements of a path: `strings.Split(path, "/")`. -/
def splitSep : List Char → List (List Char)
  | [] => [[]]
  | c :: cs =>
    if IsPathSeparator c then [] :: splitSep cs
    else
      match splitSep cs with
      | [] => [[c]]
      | x :: xs => (c :: x) :: xs

/-- The inverse direction, `strings.Join(elems, "/")`. -/
def joinSep : List (List Char) → List Char
  | [] => []
  | [x] => x
  | x :: y :: rest => x ++ Separator :: joinSep (y :: rest)

/-- The element `..`. -/
def dotdot : List Char := ['.', '.']

/-- A path is rooted when it starts with a separator. -/
def rooted : List Char → Bool
  | [] => false
  | c :: _ => IsPathSeparator c

/-- A character that is not a separator. -/
def notSep (c : Char) : Bool := !IsPathSeparator c

/-- Whether a path element ends right here: at the end of the path or before a
separator (`r == n || os.IsPathSeparator(path[r])`). -/
def atEnd : List Char → Bool
  | [] => true
  | c :: _ => IsPathSeparator c

/-- The backtracking of `filepath.Clean` on the bytes written, last written
first: `out.w--`, then `out.w--` again as long as `out.w > dotdot` and the byte
just dropped is not a separator. -/
def popElem (dotdot : Nat) : List Char → List Char
  | [] => []
  | c :: out =>
    if dotdot < out.length ∧ IsPathSeparator c = false then popElem dotdot out else out

/-- The loop `for r < n` of `filepath.Clean`, on the rest `path[r:]` of the path,
with the bytes written so far in `out` (last written first) and the index
`dotdot` where backtracking must stop. The first argument bounds the number of
iterations. -/
def cleanLoop (isRooted : Bool) : Nat → List Char → List Char → Nat → List Char
  | 0, _, out, _ => out
  | fuel + 1, path, out, dotdot =>
    match path with
    | [] => out
    | c :: rest =>
      if IsPathSeparator c = true then
        -- empty path element
        cleanLoop isRooted fuel rest out dotdot
      else if c = '.' ∧ atEnd rest = true then
        -- . element
        cleanLoop isRooted fuel rest out dotdot
      else if c = '.' ∧ rest.head? = some '.' ∧ atEnd rest.tail = true then
        -- .. element: remove to last separator
        if dotdot < out.length then
          -- can backtrack
          cleanLoop isRooted fuel rest.tail (popElem dotdot out) dotdot
        else if isRooted = false then
          -- cannot backtrack, but not rooted, so append .. element
          cleanLoop isRooted fuel rest.tail
            ('.' :: '.' :: (if 0 < out.length then Separator :: out else out))
            ('.' :: '.' :: (if 0 < out.length then Separator :: out else out)).length
        else cleanLoop isRooted fuel rest.tail out dotdot
      else
        -- real path element: add slash if needed, copy element
        cleanLoop isRooted fuel ((c :: rest).dropWhile notSep)
          (((c :: rest).takeWhile notSep).reverse ++
            (if (isRooted = true ∧ out.length ≠ 1) ∨ (isRooted = false ∧ out.length ≠ 0) then
              Separator :: out
            else out))
          dotdot

/-- The function `filepath.Clean` on the bytes of a path: the empty path is
`.`; a rooted path starts with its separator; the loop; an empty result is
`.`. -/
def cleanBytes (path : List Char) : List Char :=
  if path = [] then ['.']
  else
    let out :=
      if rooted path = true then cleanLoop true (path.length + 1) path.tail [Separator] 1
      else cleanLoop false (path.length + 1) path [] 0
    if out = [] then ['.'] else out.reverse

/-- The function `filepath.Clean`: the shortest path name equivalent to `path`
by purely lexical processing. -/
def Clean (path : String) : String := ⟨cleanBytes path.data⟩

/-! ### `filepath.Clean` on path elements

The loop of `filepath.Clean` works on bytes. The functions below describe what
it computes on whole path elements; theorem `cleanBytes_eq` shows that both
agree, and the lemmas on `filepath.Join` are proved on the description. -/

/-- What one iteration of the loop of `filepath.Clean` does with the next path
element `e`, when the elements written so far are `out` (last written first):
an empty element or `.` is dropped; `..` removes the last written element when
there is one that is not itself `..`, is dropped at the root of a rooted path
and is kept otherwise; every other element is written. -/
def cleanStep (isRooted : Bool) (out : List (List Char)) (e : List Char) : List (List Char) :=
  if e = [] then out
  else if e = ['.'] then out
  else if e = dotdot then
    match out with
    | [] => if isRooted then out else e :: out
    | top :: rest => if top = dotdot then (if isRooted then out else e :: out) else rest
  else e :: out

/-- The elements of the cleaned path, in path order. -/
def cleanElems (path : List Char) : List (List Char) :=
  ((splitSep path).foldl (cleanStep (rooted path)) []).reverse

/-- The output of `filepath.Clean` from its elements: a rooted path keeps its
leading separator, and the empty relative path is written `.`. -/
def render (isRooted : Bool) (elems : List (List Char)) : List Char :=
  if isRooted then Separator :: joinSep elems
  else if elems = [] then ['.']
  else joinSep elems

/-- What `filepath.Clean` computes, described on path elements (theorem
`cleanBytes_eq`). -/
def cleanChars (path : List Char) : List Char :=
  render (rooted path) (cleanElems path)

/-! ### `filepath.Join` and `filepath.Split` -/

/-- The function `filepath.Join`: empty leading elements are ignored, the
others are joined with the separator and the result is cleaned. -/
def Join : List String → String
  | [] => ""
  | e :: rest =>
    if e ≠ "" then Clean ⟨joinSep ((e :: rest).map String.data)⟩
    else Join rest

/-- The function `filepath.Split`: the path is cut right after its last
separator, into a directory part and a file name. -/
def Split (path : String) : String × String :=
  let r := path.data.reverse
  (⟨(r.dropWhile (fun c => !IsPathSeparator c)).reverse⟩,
   ⟨(r.takeWhile (fun c => !IsPathSeparator c)).reverse⟩)

/-! ### Predicates on paths used in the statements -/

/-- A path element that `filepath.Clean` can write: not empty, not `.`, without
separator. -/
def ElemOK (e : List Char) : Prop := e ≠ [] ∧ e ≠ ['.'] ∧ Separator ∉ e

/-- The elements written by `filepath.Clean`, last written first, are in normal
form: below an element `..` there are only elements `..`, and a rooted path has
none. -/
def NormalForm (isRooted : Bool) : List (List Char) → Prop
  | [] => True
  | e :: out =>
    ElemOK e ∧ (e = dotdot → isRooted = false ∧ (out = [] ∨ ∃ rest, out = dotdot :: rest)) ∧
      NormalForm isRooted out

/-- The directory part of a cleaned path with at least one more element than
`elems`: what `render` writes before that element. -/
def dirPart (isRooted : Bool) (elems : List (List Char)) : List Char :=
  if elems = [] then (if isRooted then [Separator] else []) else render isRooted elems ++ [Separator]

/-- The bytes written by `filepath.Clean` (last written first) when the
elements written are `elems` (last written first). -/
def bufOf (isRooted : Bool) (elems : List (List Char)) : List Char :=
  (joinSep elems.reverse).reverse ++ (if isRooted then [Separator] else [])

/-- The index `dotdot` of `filepath.Clean` when the elements written are `elems`
(last written first): the number of bytes taken by the leading `..` elements. -/
def dotdotOf (isRooted : Bool) (elems : List (List Char)) : Nat :=
  (bufOf isRooted (elems.dropWhile (fun e => decide (e ≠ dotdot)))).length

/-- A plain file name: not empty, not `.` or `..`, without separator. -/
def PlainName (name : String) : Prop :=
  name.data ≠ [] ∧ name.data ≠ ['.'] ∧ name.data ≠ dotdot ∧ Separator ∉ name.data

instance (name : String) : Decidable (PlainName name) := by
  unfold PlainName
  infer_instance

/-! ## The services used by the program -/

/-- A compiled regular expression (`*regexp.Regexp`), seen through the two
methods the program calls. -/
structure Regexp where
  /-- The method `re.Match`, on the bytes of a name. -/
  Match : String → Bool
  /-- The method `re.ReplaceAllString src repl`. -/
  ReplaceAllString : String → String → String

/-- An entry of a directory listing (`os.FileInfo`). -/
structure FileInfo where
  /-- The method `Name()`. -/
  Name : String
  /-- The method `IsDir()`. -/
  IsDir : Bool
deriving DecidableEq, Repr

/-- Error numbers reported by the operating system. -/
inductive OSError where
  | ENOENT
  | EACCES
  | EEXIST
  | ENOTDIR
  | EISDIR
  | EINVAL
  | EBUSY
  | ENAMETOOLONG
deriving DecidableEq, Repr

deriving instance DecidableEq for Except

/-- The predicate `os.IsNotExist`. -/
def IsNotExist (e : OSError) : Bool := e == OSError.ENOENT

/-- The operating-system services used by the program, over a type `σ` of
file-system states. -/
structure OS (σ : Type) where
  /-- The call `ioutil.ReadFile path`; only its error is used. -/
  ReadFile : σ → String → Except OSError Unit
  /-- The call `ioutil.ReadDir path`. -/
  ReadDir : σ → String → Except OSError (List FileInfo)
  /-- The call `os.Rename oldpath newpath`. -/
  Rename : σ → String → String → Except OSError σ

/-- The three places of `BatchRename` where `Rename` is applied: to the path
itself when it is a file (line 80), to a subdirectory entry (line 120) and to
any other entry (line 129). -/
inductive Site where
  | top
  | dirEntry
  | fileEntry
deriving DecidableEq, Repr

/-- What the program does, in order. -/
inductive Event where
  /-- The call `BatchRename path` was entered. -/
  | walk (path : String)
  /-- The directory `path` was listed, with this snapshot of entries. -/
  | list (path : String) (files : List FileInfo)
  /-- The function `Rename` was applied to `path`. -/
  | call (site : Site) (path : String)
  /-- The call `os.Rename src dst` was made, with this error. -/
  | osRename (src dst : String) (err : Option OSError)
  /-- A line was printed with `fmt.Println`. -/
  | print (line : String)
  /-- The usage message was printed with `flag.Usage`. -/
  | usage
deriving DecidableEq, Repr

/-- The outcome of `Rename` and of `BatchRename`: the new file-system state,
the events produced, and the two return values `(uint, error)`. The count is
kept as a natural number: every unit counted is one call of `os.Rename`, so
that a run cannot reach the 2^64 renames that would make a `uint` wrap. -/
structure Out (σ : Type) where
  fs : σ
  log : List Event
  n : Nat
  err : Option String
deriving DecidableEq

/-! ## The program -/

/-- The message of the error returned by `Rename` (line 156). -/
def renameError (filename filename2 : String) : String :=
  "\nRename file error: [" ++ filename ++ " -> " ++ filename2 ++ "]."

/-- The function `Rename` (lines 141-160). -/
def Rename {σ : Type} (os : OS σ) (fs : σ) (path : String) (re : Regexp) (repl : String) :
    Out σ :=
  let dir := (Split path).1
  let filename := (Split path).2
  -- not matched
  if re.Match filename = false then ⟨fs, [], 0, none⟩
  else
    let filename2 := re.ReplaceAllString filename repl
    -- not changed
    if filename2 = filename then ⟨fs, [], 0, none⟩
    else
      match os.Rename fs path (Join [dir, filename2]) with
      | .error e =>
        ⟨fs, [Event.osRename path (Join [dir, filename2]) (some e)], 0,
          some (renameError filename filename2)⟩
      | .ok fs2 =>
        ⟨fs2, [Event.osRename path (Join [dir, filename2]) none], 1, none⟩

/-- The state of the loop of `BatchRename` between two entries: the file
system, the events so far and the running count `n`. -/
structure Acc (σ : Type) where
  fs : σ
  log : List Event
  n : Nat
deriving DecidableEq

/-- The function `Rename` applied to an entry inside the loop of `BatchRename`
(lines 120-126 for a subdirectory, lines 129-135 for another entry): an error
is printed and the loop goes on with the next entry, otherwise the count
returned is added to `n`. -/
def renameEntry {σ : Type} (os : OS σ) (site : Site) (fileFullPath : String) (re : Regexp)
    (repl : String) (a : Acc σ) : Acc σ :=
  let r := Rename os a.fs fileFullPath re repl
  match r.err with
  | some e => ⟨r.fs, a.log ++ Event.call site fileFullPath :: r.log ++ [Event.print e], a.n⟩
  | none => ⟨r.fs, a.log ++ Event.call site fileFullPath :: r.log, a.n + r.n⟩

/-- One iteration of the loop of `BatchRename` (lines 100-137) on the entry
`file` of the snapshot; `sub` is the recursive call of `BatchRename`. -/
def visitEntry {σ : Type} (os : OS σ) (sub : σ → String → Option (Out σ))
    (path : String) (re : Regexp) (repl : String) (recursive D : Bool)
    (file : FileInfo) (a : Acc σ) : Option (Acc σ) :=
  let filename := file.Name
  if filename = "." ∨ filename = ".." then some a
  else
    let fileFullPath := Join [path, filename]
    -- sub directory
    if file.IsDir = true then
      if recursive = true then
        match sub a.fs fileFullPath with
        | none => none
        | some r =>
          match r.err with
          | some e => some ⟨r.fs, a.log ++ r.log ++ [Event.print e], a.n⟩
          | none =>
            -- Rename directories
            if D = true then
              some (renameEntry os Site.dirEntry fileFullPath re repl
                ⟨r.fs, a.log ++ r.log, a.n + r.n⟩)
            else some ⟨r.fs, a.log ++ r.log, a.n + r.n⟩
      else
        -- Rename directories
        if D = true then some (renameEntry os Site.dirEntry fileFullPath re repl a)
        else some a
    else some (renameEntry os Site.fileEntry fileFullPath re repl a)

/-- The loop of `BatchRename` over the snapshot `files`, in listing order. -/
def walkEntries {σ : Type} (os : OS σ) (sub : σ → String → Option (Out σ))
    (path : String) (re : Regexp) (repl : String) (recursive D : Bool) :
    List FileInfo → Acc σ → Option (Acc σ)
  | [], a => some a
  | file :: rest, a =>
    match visitEntry os sub path re repl recursive D file a with
    | none => none
    | some a2 => walkEntries os sub path re repl recursive D rest a2

/-- The function `BatchRename` (lines 74-139). The first argument bounds the
nesting of recursive calls; `none` means the bound was reached. -/
def BatchRename {σ : Type} (os : OS σ) :
    Nat → σ → String → Regexp → String → Bool → Bool → Option (Out σ)
  | 0, _, _, _, _, _, _ => none
  | fuel + 1, fs, path, re, repl, recursive, D =>
    match os.ReadFile fs path with
    | .ok _ =>
      -- it's a file
      let r := Rename os fs path re repl
      match r.err with
      | some e =>
        some ⟨r.fs, Event.walk path :: Event.call Site.top path :: r.log ++ [Event.print e],
          0, some e⟩
      | none => some ⟨r.fs, Event.walk path :: Event.call Site.top path :: r.log, r.n, none⟩
    | .error _ =>
      -- it's a directory
      match os.ReadDir fs path with
      | .error e =>
        if IsNotExist e = true then some ⟨fs, [Event.walk path], 0, some ("Not Exist: " ++ path)⟩
        else some ⟨fs, [Event.walk path], 0, some ("ReadDir Error: " ++ path)⟩
      | .ok files =>
        match walkEntries os
            (fun fs2 path2 => BatchRename os fuel fs2 path2 re repl recursive D)
            path re repl recursive D files ⟨fs, [Event.walk path, Event.list path files], 0⟩ with
        | none => none
        | some a => some ⟨a.fs, a.log, a.n, none⟩

/-- The command line after `flag.Parse`: the values of `-s`, `-r`, `-R`, `-D`
and the remaining arguments. -/
structure Flags where
  src : String
  repl : String
  R : Bool
  D : Bool
  args : List String

/-- How the process ends: the file system, the events and the exit status. -/
structure Exit (σ : Type) where
  fs : σ
  log : List Event
  status : Nat
deriving DecidableEq

/-- The function `init` (lines 26-46) after the flags are parsed: without
pattern and replacement the usage is printed and the process exits with
status 2 (`some 2`); otherwise `main` runs (`none`). -/
def init (flags : Flags) : Option Nat :=
  if flags.src = "" ∧ flags.repl = "" then some 2 else none

/-- The loop of `main` over the paths (lines 62-71). -/
def mainLoop {σ : Type} (os : OS σ) (fuel : Nat) (re : Regexp) (flags : Flags) :
    List String → σ → List Event → Option (σ × List Event)
  | [], fs, log => some (fs, log)
  | path :: rest, fs, log =>
    match BatchRename os fuel fs path re flags.repl flags.R flags.D with
    | none => none
    | some r =>
      match r.err with
      | some e =>
        mainLoop os fuel re flags rest r.fs
          (log ++ Event.print (path ++ ":") :: r.log ++ [Event.print e])
      | none =>
        mainLoop os fuel re flags rest r.fs
          (log ++ Event.print (path ++ ":") :: r.log ++
            [Event.print (toString r.n ++ " files be renamed\n")])

/-- The function `main` (lines 48-72); `compile` is `regexp.Compile`. When
`main` returns, the process exits with status 0. -/
def main {σ : Type} (compile : String → Option Regexp) (os : OS σ) (fuel : Nat)
    (flags : Flags) (fs : σ) : Option (Exit σ) :=
  match compile flags.src with
  | none => some ⟨fs, [Event.print "Bad regular expression!"], 0⟩
  | some re =>
    let paths := if flags.args.length = 0 then ["./"] else flags.args
    match mainLoop os fuel re flags paths fs [] with
    | none => none
    | some (fs2, log) => some ⟨fs2, log, 0⟩

/-- The whole process: `init`, then `main`. -/
def run {σ : Type} (compile : String → Option Regexp) (os : OS σ) (fuel : Nat)
    (flags : Flags) (fs : σ) : Option (Exit σ) :=
  match init flags with
  | some status => some ⟨fs, [Event.usage], status⟩
  | none => main compile os fuel flags fs

/-! ## Predicates on runs used in the statements -/

/-- The recursion of `BatchRename` from a listed directory into one of its
subdirectories makes `rank` decrease: the nesting of directories is bounded. -/
def Descends {σ : Type} (os : OS σ) (rank : String → Nat) : Prop :=
  ∀ (s : σ) (p : String) (files : List FileInfo) (f : FileInfo),
    os.ReadDir s p = .ok files → f ∈ files → f.IsDir = true →
    f.Name ≠ "." → f.Name ≠ ".." → rank (Join [p, f.Name]) < rank p

/-- The number of calls of `os.Rename` that succeeded. -/
def renamed : List Event → Nat
  | [] => 0
  | Event.osRename _ _ none :: rest => renamed rest + 1
  | _ :: rest => renamed rest

/-- The paths reached from `p` through the snapshots recorded in `log`: `p`
itself, and `filepath.Join(q, name)` for a path `q` already reached, a snapshot
of `q` in `log` and the name of an entry of that snapshot other than `.` and
`..`. -/
inductive Below (log : List Event) (p : String) : String → Prop where
  | base : Below log p p
  | step (q : String) (fl : List FileInfo) (f : FileInfo) : Below log p q →
      Event.list q fl ∈ log → f ∈ fl → f.Name ≠ "." → f.Name ≠ ".." →
      Below log p (Join [q, f.Name])

/-- The listings of the operating system name their entries by plain file
names. -/
def PlainListing {σ : Type} (os : OS σ) : Prop :=
  ∀ (s : σ) (p : String) (files : List FileInfo) (f : FileInfo),
    os.ReadDir s p = .ok files → f ∈ files → f.Name ≠ "." → f.Name ≠ ".." →
    PlainName f.Name

/-- The path `q` is the path `p` or lies under it: `q` is a cleaned path, and it
is `p` or starts with `p` followed by a separator. -/
def Under (p q : String) : Prop :=
  Clean q = q ∧ (q = p ∨ ∃ rest, q.data = p.data ++ Separator :: rest)

/-- A cleaned path with at least one element. -/
def CleanPath (isRooted : Bool) (q : String) : Prop :=
  ∃ l, l ≠ [] ∧ NormalForm isRooted l.reverse ∧ q.data = render isRooted l

/-- What the loop of `BatchRename` on the directory `path` does at least for the
entry `f` of its snapshot: `Rename` is applied to an entry that is not a
directory; a subdirectory is walked when recursion is enabled; without
recursion `Rename` is applied to it when directories are renamed. -/
def Processed (recursive D : Bool) (path : String) (f : FileInfo) (log : List Event) : Prop :=
  (f.IsDir = false → Event.call Site.fileEntry (Join [path, f.Name]) ∈ log) ∧
  (f.IsDir = true → recursive = true → Event.walk (Join [path, f.Name]) ∈ log) ∧
  (f.IsDir = true → recursive = false → D = true →
    Event.call Site.dirEntry (Join [path, f.Name]) ∈ log)

/-- Every entry of every snapshot taken is processed. -/
def Closed (recursive D : Bool) (log : List Event) : Prop :=
  ∀ (q : String) (fl : List FileInfo), Event.list q fl ∈ log →
    ∀ f ∈ fl, f.Name ≠ "." → f.Name ≠ ".." → Processed recursive D q f log

/-- The path an event is about: the path walked or listed, the path `Rename` is
applied to, the source of an `os.Rename`. -/
def Event.subject : Event → Option String
  | Event.walk p => some p
  | Event.list p _ => some p
  | Event.call _ p => some p
  | Event.osRename src _ _ => some src
  | Event.print _ => none
  | Event.usage => none

/-- The ways one iteration of the loop of `BatchRename` ends, for the entry `f`
of the directory `path`, from the loop state `a` to the loop state `a2`. -/
inductive Visit {σ : Type} (os : OS σ) (sub : σ → String → Option (Out σ)) (path : String)
    (re : Regexp) (repl : String) (recursive D : Bool) (f : FileInfo) (a : Acc σ) :
    Acc σ → Prop where
  /-- The entries `.` and `..` are skipped. -/
  | dot : f.Name = "." ∨ f.Name = ".." → Visit os sub path re repl recursive D f a a
  /-- An entry that is not a directory is renamed. -/
  | file : f.Name ≠ "." → f.Name ≠ ".." → f.IsDir = false →
      Visit os sub path re repl recursive D f a
        (renameEntry os Site.fileEntry (Join [path, f.Name]) re repl a)
  /-- Without recursion, a subdirectory is renamed when directories are. -/
  | flatRename : f.Name ≠ "." → f.Name ≠ ".." → f.IsDir = true → recursive = false →
      D = true →
      Visit os sub path re repl recursive D f a
        (renameEntry os Site.dirEntry (Join [path, f.Name]) re repl a)
  /-- Without recursion and without directory renaming, a subdirectory is left alone. -/
  | flatSkip : f.Name ≠ "." → f.Name ≠ ".." → f.IsDir = true → recursive = false →
      D = false → Visit os sub path re repl recursive D f a a
  /-- The walk of the subdirectory returned an error: it is printed and the loop
  goes on with the next entry. -/
  | subError (r : Out σ) (e : String) : f.Name ≠ "." → f.Name ≠ ".." → f.IsDir = true →
      recursive = true → sub a.fs (Join [path, f.Name]) = some r → r.err = some e →
      Visit os sub path re repl recursive D f a ⟨r.fs, a.log ++ r.log ++ [Event.print e], a.n⟩
  /-- The walk of the subdirectory returned no error and the subdirectory is renamed. -/
  | subRename (r : Out σ) : f.Name ≠ "." → f.Name ≠ ".." → f.IsDir = true →
      recursive = true → sub a.fs (Join [path, f.Name]) = some r → r.err = none → D = true →
      Visit os sub path re repl recursive D f a
        (renameEntry os Site.dirEntry (Join [path, f.Name]) re repl
          ⟨r.fs, a.log ++ r.log, a.n + r.n⟩)
  /-- The walk of the subdirectory returned no error and directories are not renamed. -/
  | subOnly (r : Out σ) : f.Name ≠ "." → f.Name ≠ ".." → f.IsDir = true →
      recursive = true → sub a.fs (Join [path, f.Name]) = some r → r.err = none → D = false →
      Visit os sub path re repl recursive D f a ⟨r.fs, a.log ++ r.log, a.n + r.n⟩

/-! ## A concrete operating system: an in-memory Unix-like file system

The tree has no symbolic links, the working directory is its root, and the only
permission modelled is read permission (reading a file, listing a directory).
-/

/-- The two kinds of file-system object. -/
inductive Kind where
  | file
  | dir
deriving DecidableEq, Repr

/-- What the file system stores about an object. -/
structure Inode where
  kind : Kind
  /-- Read permission: the file can be read, the directory can be listed. -/
  readable : Bool
deriving DecidableEq, Repr

/-- A file-system state: the objects below the root, each under the list of
names that leads to it from the root. The root itself is always a readable
directory. -/
abbrev FS := List (List String × Inode)

/-- The limit `PATH_MAX` on the length of a path given to a system call. -/
def PathMax : Nat := 4096

/-- The object stored under `key`, if any. -/
def lookup (fs : FS) (key : List String) : Option Inode :=
  if key = [] then some ⟨Kind.dir, true⟩
  else
    match fs with
    | [] => none
    | e :: rest => if e.1 = key then some e.2 else lookup rest key

/-- Path resolution steps through a directory only. -/
def dirCheck (fs : FS) (key : List String) : Except OSError Unit :=
  match lookup fs key with
  | none => .error OSError.ENOENT
  | some i => if i.kind = Kind.dir then .ok () else .error OSError.ENOTDIR

/-- Path resolution, element by element, from the object `cur`: every element,
also an empty one or `.`, is looked up in a directory that must exist; `..`
goes to the parent (the root is its own parent). The last element need not
exist. -/
def resolveFrom (fs : FS) : List (List Char) → List String → Except OSError (List String)
  | [], cur => .ok cur
  | e :: rest, cur =>
    match dirCheck fs cur with
    | .error err => .error err
    | .ok _ =>
      if e = [] then resolveFrom fs rest cur
      else if e = ['.'] then resolveFrom fs rest cur
      else if e = dotdot then resolveFrom fs rest cur.dropLast
      else resolveFrom fs rest (cur ++ [String.mk e])

/-- Path resolution of a path string: a path longer than `PATH_MAX` is
`ENAMETOOLONG`, the empty path is `ENOENT`. -/
def resolve (fs : FS) (path : String) : Except OSError (List String) :=
  if PathMax < path.length then .error OSError.ENAMETOOLONG
  else if path = "" then .error OSError.ENOENT
  else resolveFrom fs (splitSep path.data) []

/-- The call `ioutil.ReadFile` on the concrete file system. -/
def readFile (fs : FS) (path : String) : Except OSError Unit :=
  match resolve fs path with
  | .error e => .error e
  | .ok key =>
    match lookup fs key with
    | none => .error OSError.ENOENT
    | some i =>
      if i.kind = Kind.dir then .error OSError.EISDIR
      else if i.readable = true then .ok ()
      else .error OSError.EACCES

/-- The test for a plain file name. -/
def validName (name : String) : Bool :=
  decide (name.data ≠ [] ∧ name.data ≠ ['.'] ∧ name.data ≠ dotdot ∧ Separator ∉ name.data)

/-- The entries directly inside the directory `key` (only legal names are
reported), in the order of the state. -/
def children (fs : FS) (key : List String) : List FileInfo :=
  fs.filterMap fun e =>
    match e.1.getLast? with
    | none => none
    | some name =>
      if e.1.dropLast = key ∧ validName name = true then
        some ⟨name, decide (e.2.kind = Kind.dir)⟩
      else none

/-- Bytewise order of names. -/
def leChars : List Char → List Char → Bool
  | [], _ => true
  | _ :: _, [] => false
  | a :: as, b :: bs =>
    if a.toNat < b.toNat then true
    else if b.toNat < a.toNat then false
    else leChars as bs

/-- Insertion of an entry into a listing sorted by name. -/
def insertEntry (f : FileInfo) : List FileInfo → List FileInfo
  | [] => [f]
  | g :: rest =>
    if leChars f.Name.data g.Name.data = true then f :: g :: rest
    else g :: insertEntry f rest

/-- The listing sorted by file name, as `ioutil.ReadDir` returns it. -/
def sortEntries : List FileInfo → List FileInfo
  | [] => []
  | f :: rest => insertEntry f (sortEntries rest)

/-- The call `ioutil.ReadDir` on the concrete file system. -/
def readDir (fs : FS) (path : String) : Except OSError (List FileInfo) :=
  match resolve fs path with
  | .error e => .error e
  | .ok key =>
    match lookup fs key with
    | none => .error OSError.ENOENT
    | some i =>
      if i.kind = Kind.file then .error OSError.ENOTDIR
      else if i.readable = true then .ok (sortEntries (children fs key))
      else .error OSError.EACCES

/-- The state after the object `src` has moved to `dst`: what was at `dst` is
gone and every object at or below `src` is found at or below `dst`. -/
def moveTree (fs : FS) (src dst : List String) : FS :=
  (fs.filter fun e => decide (e.1 ≠ dst)).map fun e =>
    if src <+: e.1 then (dst ++ e.1.drop src.length, e.2) else e

/-- The system call `rename(2)`. -/
def sysRename (fs : FS) (oldpath newpath : String) : Except OSError FS :=
  match resolve fs oldpath with
  | .error e => .error e
  | .ok src =>
    match lookup fs src with
    | none => .error OSError.ENOENT
    | some i =>
      match resolve fs newpath with
      | .error e => .error e
      | .ok dst =>
        if src = dst then .ok fs
        else if src = [] ∨ dst = [] then .error OSError.EBUSY
        else if i.kind = Kind.dir ∧ src <+: dst then .error OSError.EINVAL
        else
          match lookup fs dst with
          | none => .ok (moveTree fs src dst)
          | some j =>
            if j.kind = Kind.dir then
              (if i.kind = Kind.file then .error OSError.EISDIR
               else if children fs dst = [] then .ok (moveTree fs src dst)
               else .error OSError.EEXIST)
            else if i.kind = Kind.dir then .error OSError.ENOTDIR
            else .ok (moveTree fs src dst)

/-- The call `os.Rename` on Unix: when the new name is an existing directory,
the error found on the old name is returned, else `EEXIST` unless both names
are different names of the same object; otherwise it is `rename(2)`. -/
def osRename (fs : FS) (oldpath newpath : String) : Except OSError FS :=
  match resolve fs newpath with
  | .error _ => sysRename fs oldpath newpath
  | .ok dst =>
    match lookup fs dst with
    | none => sysRename fs oldpath newpath
    | some j =>
      if j.kind = Kind.dir then
        match resolve fs oldpath with
        | .error e => .error e
        | .ok src =>
          match lookup fs src with
          | none => .error OSError.ENOENT
          | some _ =>
            if newpath = oldpath ∨ src ≠ dst then .error OSError.EEXIST
            else sysRename fs oldpath newpath
      else sysRename fs oldpath newpath

/-- The concrete operating system. -/
def unixOS : OS FS := ⟨readFile, readDir, osRename⟩

/-- The measure that decreases along the recursion of `BatchRename` on the
concrete operating system: the room left below `PATH_MAX` for more path
elements. -/
def unixRank (path : String) : Nat := PathMax + 2 - (cleanElems path.data).length

/-- A regular file that can be read. -/
def regularFile : Inode := ⟨Kind.file, true⟩

/-- A directory that can be listed. -/
def directory : Inode := ⟨Kind.dir, true⟩

/-- A directory without read permission. -/
def lockedDirectory : Inode := ⟨Kind.dir, false⟩

/-! ## Concrete patterns -/

/-- The name of a template variable made of digits, as a number. -/
def digitsValue (ds : List Char) : Nat :=
  ds.foldl (fun acc c => 10 * acc + (c.toNat - 48)) 0

/-- A character of a template variable name. -/
def isNameChar (c : Char) : Bool := c.isAlphanum || c == '_'

/-- The value of the template variable `name` for the submatches `groups`
(number 0 is the whole match): a number selects a submatch, an index out of
range or any other name gives the empty string. -/
def groupValue (groups : List String) (name : List Char) : List Char :=
  if name.all Char.isDigit then (groups.getD (digitsValue name) "").data else []

/-- The expansion of a replacement template (`Regexp.Expand`) for a pattern
without named groups: `$name` takes the longest name, `$$` is a dollar sign
and a dollar sign that starts no variable is kept. The first argument bounds
the number of steps. -/
def expandTemplate (groups : List String) : Nat → List Char → List Char
  | 0, _ => []
  | _ + 1, [] => []
  | fuel + 1, c :: rest =>
    if c = '$' then
      match rest with
      | [] => ['$']
      | d :: rest2 =>
        if d = '$' then '$' :: expandTemplate groups fuel rest2
        else if d = '{' then
          let name := rest2.takeWhile (fun x => x != '}')
          let after := rest2.dropWhile (fun x => x != '}')
          match after with
          | [] => '$' :: expandTemplate groups fuel rest
          | _ :: after2 =>
            if name ≠ [] ∧ name.all isNameChar = true then
              groupValue groups name ++ expandTemplate groups fuel after2
            else '$' :: expandTemplate groups fuel rest
        else
          let name := rest.takeWhile isNameChar
          if name = [] then '$' :: expandTemplate groups fuel rest
          else groupValue groups name ++ expandTemplate groups fuel (rest.dropWhile isNameChar)
    else c :: expandTemplate groups fuel rest

/-- The replacement for one match with submatches `groups`. -/
def expand (repl : String) (groups : List String) : List Char :=
  expandTemplate groups (repl.length + 1) repl.data

/-- The pattern that matches exactly the name `name`, as compiled from
`^name$` for a name without metacharacters. -/
def exactly (name : String) : Regexp where
  Match := fun s => decide (s = name)
  ReplaceAllString := fun s repl => if s = name then ⟨expand repl [s]⟩ else s

/-- All matches of `foo(\d)` in a name replaced, from left to right. -/
def replaceFooDigit (repl : String) : List Char → List Char
  | 'f' :: 'o' :: 'o' :: d :: rest =>
    if d.isDigit = true then
      expand repl [⟨['f', 'o', 'o', d]⟩, ⟨[d]⟩] ++ replaceFooDigit repl rest
    else 'f' :: replaceFooDigit repl ('o' :: 'o' :: d :: rest)
  | c :: rest => c :: replaceFooDigit repl rest
  | [] => []

/-- Whether `foo(\d)` matches somewhere in a name. -/
def matchFooDigit : List Char → Bool
  | 'f' :: 'o' :: 'o' :: d :: rest =>
    d.isDigit || matchFooDigit ('o' :: 'o' :: d :: rest)
  | _ :: rest => matchFooDigit rest
  | [] => false

/-- The pattern compiled from `foo(\d)`. -/
def fooDigit : Regexp where
  Match := fun s => matchFooDigit s.data
  ReplaceAllString := fun s repl => ⟨replaceFooDigit repl s.data⟩

/-- The pattern compiled from `^(.*)$`: it matches every name, and both the
whole match and the first submatch are the name itself. -/
def wholeName : Regexp where
  Match := fun _ => true
  ReplaceAllString := fun s repl => ⟨expand repl [s, s]⟩

/-- A substitution given by its effect on names: the names listed match and are
replaced by the name given for them, whatever the replacement string. -/
def mapNames (table : List (String × String)) : Regexp where
  Match := fun s => (table.lookup s).isSome
  ReplaceAllString := fun s _ => (table.lookup s).getD s

/-- The function `regexp.Compile` on the patterns of the examples: `foo(\d)` is
compiled to `fooDigit`, and `(`, which misses its closing parenthesis, is a
syntax error; the other patterns are not known and are rejected too. -/
def compileExamples (src : String) : Option Regexp :=
  if src = "foo(\\d)" then some fooDigit else none

/-! ## Concrete file systems -/

/-- A directory `d` with the files `foo1.txt`, `foo2.txt` and `other`. -/
def fooTree : FS :=
  [(["d"], directory), (["d", "foo2.txt"], regularFile), (["d", "foo1.txt"], regularFile),
    (["d", "other"], regularFile)]

/-- The tree `fooTree` after `foo(\d)` was replaced by `bar$1`. -/
def barTree : FS :=
  [(["d"], directory), (["d", "bar2.txt"], regularFile), (["d", "bar1.txt"], regularFile),
    (["d", "other"], regularFile)]

/-- The tree `a/b/c.txt`. -/
def treeABC : FS :=
  [(["a"], directory), (["a", "b"], directory), (["a", "b", "c.txt"], regularFile)]

/-- The tree `a/y/c.txt`. -/
def treeAYC : FS :=
  [(["a"], directory), (["a", "y"], directory), (["a", "y", "c.txt"], regularFile)]

/-- The tree `x/y/c.txt`. -/
def treeXYC : FS :=
  [(["x"], directory), (["x", "y"], directory), (["x", "y", "c.txt"], regularFile)]

/-- A directory `foo1` with the file `foo2.txt`. -/
def fooDirTree : FS :=
  [(["foo1"], directory), (["foo1", "foo2.txt"], regularFile)]

/-- A file `a` next to a directory `b`. -/
def fileAndDir : FS := [(["a"], regularFile), (["b"], directory)]

/-- A directory `a` next to a file `b`. -/
def dirAndFile : FS := [(["a"], directory), (["b"], regularFile)]

/-- A directory `d` with the file `f`. -/
def treeDF : FS := [(["d"], directory), (["d", "f"], regularFile)]

/-- A directory `a` that cannot be listed. -/
def lockedTree : FS := [(["a"], lockedDirectory)]

/-! ## The function `Rename` -/

theorem Rename_nomatch {σ : Type} (os : OS σ) (fs : σ) (path : String) (re : Regexp)
    (repl : String) (h : re.Match (Split path).2 = false) :
    Rename os fs path re repl = ⟨fs, [], 0, none⟩ := by
  simp [Rename, h]

theorem Rename_same {σ : Type} (os : OS σ) (fs : σ) (path : String) (re : Regexp)
    (repl : String) (h : re.ReplaceAllString (Split path).2 repl = (Split path).2) :
    Rename os fs path re repl = ⟨fs, [], 0, none⟩ := by
  simp [Rename, h]

theorem Rename_fail {σ : Type} (os : OS σ) (fs : σ) (path : String) (re : Regexp)
    (repl : String) (e : OSError) (hm : re.Match (Split path).2 = true)
    (hne : re.ReplaceAllString (Split path).2 repl ≠ (Split path).2)
    (h : os.Rename fs path (Join [(Split path).1, re.ReplaceAllString (Split path).2 repl])
      = .error e) :
    Rename os fs path re repl =
      ⟨fs, [Event.osRename path
          (Join [(Split path).1, re.ReplaceAllString (Split path).2 repl]) (some e)], 0,
        some (renameError (Split path).2 (re.ReplaceAllString (Split path).2 repl))⟩ := by
  simp [Rename, hm, hne, h]

theorem Rename_ok {σ : Type} (os : OS σ) (fs fs2 : σ) (path : String) (re : Regexp)
    (repl : String) (hm : re.Match (Split path).2 = true)
    (hne : re.ReplaceAllString (Split path).2 repl ≠ (Split path).2)
    (h : os.Rename fs path (Join [(Split path).1, re.ReplaceAllString (Split path).2 repl])
      = .ok fs2) :
    Rename os fs path re repl =
      ⟨fs2, [Event.osRename path
          (Join [(Split path).1, re.ReplaceAllString (Split path).2 repl]) none], 1, none⟩ := by
  simp [Rename, hm, hne, h]

/-- The three ways `Rename` can end. -/
theorem Rename_cases {σ : Type} (os : OS σ) (fs : σ) (path : String) (re : Regexp)
    (repl : String) :
    Rename os fs path re repl = ⟨fs, [], 0, none⟩ ∨
    (∃ e, os.Rename fs path (Join [(Split path).1, re.ReplaceAllString (Split path).2 repl])
        = .error e ∧
      Rename os fs path re repl =
        ⟨fs, [Event.osRename path
            (Join [(Split path).1, re.ReplaceAllString (Split path).2 repl]) (some e)], 0,
          some (renameError (Split path).2 (re.ReplaceAllString (Split path).2 repl))⟩) ∨
    (∃ fs2, os.Rename fs path (Join [(Split path).1, re.ReplaceAllString (Split path).2 repl])
        = .ok fs2 ∧
      Rename os fs path re repl =
        ⟨fs2, [Event.osRename path
            (Join [(Split path).1, re.ReplaceAllString (Split path).2 repl]) none], 1, none⟩) := by
  by_cases hm : re.Match (Split path).2 = true
  · by_cases hne : re.ReplaceAllString (Split path).2 repl = (Split path).2
    · exact Or.inl (Rename_same os fs path re repl hne)
    · cases h : os.Rename fs path
          (Join [(Split path).1, re.ReplaceAllString (Split path).2 repl]) with
      | error e => exact Or.inr (Or.inl ⟨e, rfl, Rename_fail os fs path re repl e hm hne h⟩)
      | ok fs2 => exact Or.inr (Or.inr ⟨fs2, rfl, Rename_ok os fs fs2 path re repl hm hne h⟩)
  · exact Or.inl (Rename_nomatch os fs path re repl (by simpa using hm))

/-! ## Unfolding `BatchRename` -/

theorem BatchRename_file {σ : Type} (os : OS σ) (fuel : Nat) (fs : σ) (path : String)
    (re : Regexp) (repl : String) (recursive D : Bool) (u : Unit)
    (hf : os.ReadFile fs path = .ok u) :
    BatchRename os (fuel + 1) fs path re repl recursive D =
      some ⟨(Rename os fs path re repl).fs,
        Event.walk path :: Event.call Site.top path :: (Rename os fs path re repl).log ++
          (match (Rename os fs path re repl).err with
            | some e => [Event.print e]
            | none => []),
        (Rename os fs path re repl).n, (Rename os fs path re repl).err⟩ := by
  rcases Rename_cases os fs path re repl with h | ⟨e, _, h⟩ | ⟨fs2, _, h⟩ <;>
    simp [BatchRename, hf, h]

theorem BatchRename_nodir {σ : Type} (os : OS σ) (fuel : Nat) (fs : σ) (path : String)
    (re : Regexp) (repl : String) (recursive D : Bool) (e0 e : OSError)
    (hf : os.ReadFile fs path = .error e0) (hd : os.ReadDir fs path = .error e) :
    BatchRename os (fuel + 1) fs path re repl recursive D =
      some ⟨fs, [Event.walk path], 0,
        some (if IsNotExist e = true then "Not Exist: " ++ path else "ReadDir Error: " ++ path)⟩ := by
  by_cases h : IsNotExist e = true <;> simp [BatchRename, hf, hd, h]

theorem BatchRename_dir {σ : Type} (os : OS σ) (fuel : Nat) (fs : σ) (path : String)
    (re : Regexp) (repl : String) (recursive D : Bool) (e0 : OSError) (files : List FileInfo)
    (hf : os.ReadFile fs path = .error e0) (hd : os.ReadDir fs path = .ok files) :
    BatchRename os (fuel + 1) fs path re repl recursive D =
      (walkEntries os (fun fs2 path2 => BatchRename os fuel fs2 path2 re repl recursive D)
        path re repl recursive D files ⟨fs, [Event.walk path, Event.list path files], 0⟩).map
        (fun a => ⟨a.fs, a.log, a.n, none⟩) := by
  simp only [BatchRename, hf, hd]
  cases walkEntries os (fun fs2 path2 => BatchRename os fuel fs2 path2 re repl recursive D)
    path re repl recursive D files ⟨fs, [Event.walk path, Event.list path files], 0⟩ <;> rfl

/-! ## The loop over a snapshot -/

theorem walkEntries_append {σ : Type} (os : OS σ) (sub : σ → String → Option (Out σ))
    (path : String) (re : Regexp) (repl : String) (recursive D : Bool)
    (l1 l2 : List FileInfo) (a : Acc σ) :
    walkEntries os sub path re repl recursive D (l1 ++ l2) a =
      (walkEntries os sub path re repl recursive D l1 a).bind
        (walkEntries os sub path re repl recursive D l2) := by
  induction l1 generalizing a with
  | nil => simp [walkEntries]
  | cons f rest ih =>
    simp only [List.cons_append, walkEntries]
    cases visitEntry os sub path re repl recursive D f a with
    | none => simp
    | some a2 => simpa using ih a2

/-- The loop ends when the recursive calls it makes end. -/
theorem walkEntries_total {σ : Type} (os : OS σ) (sub : σ → String → Option (Out σ))
    (path : String) (re : Regexp) (repl : String) (recursive D : Bool)
    (files : List FileInfo)
    (hsub : ∀ f ∈ files, f.IsDir = true → f.Name ≠ "." → f.Name ≠ ".." →
      ∀ fs, ∃ r, sub fs (Join [path, f.Name]) = some r)
    (a : Acc σ) : ∃ a2, walkEntries os sub path re repl recursive D files a = some a2 := by
  induction files generalizing a with
  | nil => exact ⟨a, rfl⟩
  | cons f rest ih =>
    have hrest : ∀ g ∈ rest, g.IsDir = true → g.Name ≠ "." → g.Name ≠ ".." →
        ∀ fs, ∃ r, sub fs (Join [path, g.Name]) = some r :=
      fun g hg => hsub g (List.mem_cons_of_mem _ hg)
    have hv : ∃ a1, visitEntry os sub path re repl recursive D f a = some a1 := by
      unfold visitEntry
      by_cases hdot : f.Name = "." ∨ f.Name = ".."
      · simp [hdot]
      · have h1 : f.Name ≠ "." := fun h => hdot (Or.inl h)
        have h2 : f.Name ≠ ".." := fun h => hdot (Or.inr h)
        by_cases hdir : f.IsDir = true
        · obtain ⟨r, hr⟩ := hsub f (List.mem_cons_self _ _) hdir h1 h2 a.fs
          cases hrec : recursive <;> cases hD : D <;> cases hre : r.err <;>
            simp [hdot, hdir, hr, hre]
        · simp [hdot, hdir]
    obtain ⟨a1, ha1⟩ := hv
    obtain ⟨a2, ha2⟩ := ih hrest a1
    exact ⟨a2, by simp [walkEntries, ha1, ha2]⟩

/-- With a bound on the nesting of directories, `BatchRename` returns as soon as
it is given more fuel than the rank of its path. -/
theorem BatchRename_total {σ : Type} (os : OS σ) (rank : String → Nat)
    (hdesc : Descends os rank) (re : Regexp) (repl : String) (recursive D : Bool)
    (fuel : Nat) (fs : σ) (path : String) (hfuel : rank path < fuel) :
    ∃ out, BatchRename os fuel fs path re repl recursive D = some out := by
  induction fuel generalizing fs path with
  | zero => omega
  | succ fuel ih =>
    cases hf : os.ReadFile fs path with
    | ok u => exact ⟨_, BatchRename_file os fuel fs path re repl recursive D u hf⟩
    | error e0 =>
      cases hd : os.ReadDir fs path with
      | error e => exact ⟨_, BatchRename_nodir os fuel fs path re repl recursive D e0 e hf hd⟩
      | ok files =>
        rw [BatchRename_dir os fuel fs path re repl recursive D e0 files hf hd]
        obtain ⟨a2, ha2⟩ := walkEntries_total os
          (fun fs2 path2 => BatchRename os fuel fs2 path2 re repl recursive D)
          path re repl recursive D files
          (fun f hf2 hdir h1 h2 fs2 =>
            ih fs2 (Join [path, f.Name])
              (by have := hdesc fs path files f hd hf2 hdir h1 h2; omega))
          ⟨fs, [Event.walk path, Event.list path files], 0⟩
        exact ⟨_, by rw [ha2]; rfl⟩

theorem visitEntry_visit {σ : Type} (os : OS σ) (sub : σ → String → Option (Out σ))
    (path : String) (re : Regexp) (repl : String) (recursive D : Bool) (f : FileInfo)
    (a a2 : Acc σ) (h : visitEntry os sub path re repl recursive D f a = some a2) :
    Visit os sub path re repl recursive D f a a2 := by
  unfold visitEntry at h
  by_cases hdot : f.Name = "." ∨ f.Name = ".."
  · rw [if_pos hdot] at h
    cases h
    exact Visit.dot hdot
  · have h1 : f.Name ≠ "." := fun h => hdot (Or.inl h)
    have h2 : f.Name ≠ ".." := fun h => hdot (Or.inr h)
    rw [if_neg hdot] at h
    by_cases hdir : f.IsDir = true
    · rw [if_pos hdir] at h
      by_cases hrec : recursive = true
      · rw [if_pos hrec] at h
        cases hs : sub a.fs (Join [path, f.Name]) with
        | none => simp [hs] at h
        | some r =>
          simp only [hs] at h
          cases hre : r.err with
          | some e =>
            simp only [hre] at h
            cases h
            exact Visit.subError r e h1 h2 hdir hrec hs hre
          | none =>
            simp only [hre] at h
            by_cases hD : D = true
            · rw [if_pos hD] at h
              cases h
              exact Visit.subRename r h1 h2 hdir hrec hs hre hD
            · rw [if_neg hD] at h
              cases h
              exact Visit.subOnly r h1 h2 hdir hrec hs hre (by simpa using hD)
      · rw [if_neg hrec] at h
        by_cases hD : D = true
        · rw [if_pos hD] at h
          cases h
          exact Visit.flatRename h1 h2 hdir (by simpa using hrec) hD
        · rw [if_neg hD] at h
          cases h
          exact Visit.flatSkip h1 h2 hdir (by simpa using hrec) (by simpa using hD)
    · rw [if_neg hdir] at h
      cases h
      exact Visit.file h1 h2 (by simpa using hdir)

/-- The three ways `Rename` applied to an entry changes the loop state. -/
theorem renameEntry_cases {σ : Type} (os : OS σ) (site : Site) (p : String) (re : Regexp)
    (repl : String) (a : Acc σ) :
    renameEntry os site p re repl a = ⟨a.fs, a.log ++ [Event.call site p], a.n⟩ ∨
    (∃ e dst msg, renameEntry os site p re repl a =
      ⟨a.fs, a.log ++ [Event.call site p, Event.osRename p dst (some e), Event.print msg],
        a.n⟩) ∨
    (∃ fs2 dst, renameEntry os site p re repl a =
      ⟨fs2, a.log ++ [Event.call site p, Event.osRename p dst none], a.n + 1⟩) := by
  rcases Rename_cases os a.fs p re repl with h | ⟨e, _, h⟩ | ⟨fs2, _, h⟩
  · left; simp [renameEntry, h]
  · right; left
    exact ⟨e, Join [(Split p).1, re.ReplaceAllString (Split p).2 repl],
      renameError (Split p).2 (re.ReplaceAllString (Split p).2 repl), by simp [renameEntry, h]⟩
  · right; right
    exact ⟨fs2, Join [(Split p).1, re.ReplaceAllString (Split p).2 repl],
      by simp [renameEntry, h]⟩

/-- Induction over the calls of `BatchRename`: a property `P` of the outcome of
every call follows from a property `Q` of the loop state that holds when the
loop starts and is kept by every iteration. -/
theorem BatchRename_induction {σ : Type} (os : OS σ) (re : Regexp) (repl : String)
    (recursive D : Bool) (P : σ → String → Out σ → Prop)
    (Q : σ → String → List FileInfo → List FileInfo → Acc σ → Prop)
    (hfile : ∀ fs path u, os.ReadFile fs path = .ok u →
      P fs path ⟨(Rename os fs path re repl).fs,
        Event.walk path :: Event.call Site.top path :: (Rename os fs path re repl).log ++
          (match (Rename os fs path re repl).err with
            | some e => [Event.print e]
            | none => []),
        (Rename os fs path re repl).n, (Rename os fs path re repl).err⟩)
    (hnodir : ∀ fs path e0 e, os.ReadFile fs path = .error e0 →
      os.ReadDir fs path = .error e →
      P fs path ⟨fs, [Event.walk path], 0,
        some (if IsNotExist e = true then "Not Exist: " ++ path else "ReadDir Error: " ++ path)⟩)
    (hinit : ∀ fs path e0 files, os.ReadFile fs path = .error e0 →
      os.ReadDir fs path = .ok files →
      Q fs path files [] ⟨fs, [Event.walk path, Event.list path files], 0⟩)
    (hstep : ∀ (sub : σ → String → Option (Out σ)),
      (∀ fs p r, sub fs p = some r → P fs p r) →
      ∀ fs path files done f a a2, (∃ rest, files = done ++ f :: rest) →
        Q fs path files done a →
        Visit os sub path re repl recursive D f a a2 → Q fs path files (done ++ [f]) a2)
    (hfinal : ∀ fs path e0 files a, os.ReadFile fs path = .error e0 →
      os.ReadDir fs path = .ok files → Q fs path files files a →
      P fs path ⟨a.fs, a.log, a.n, none⟩)
    (fuel : Nat) (fs : σ) (path : String) (out : Out σ)
    (h : BatchRename os fuel fs path re repl recursive D = some out) : P fs path out := by
  induction fuel generalizing fs path out with
  | zero => simp [BatchRename] at h
  | succ fuel ih =>
    cases hf : os.ReadFile fs path with
    | ok u =>
      rw [BatchRename_file os fuel fs path re repl recursive D u hf] at h
      cases h
      exact hfile fs path u hf
    | error e0 =>
      cases hd : os.ReadDir fs path with
      | error e =>
        rw [BatchRename_nodir os fuel fs path re repl recursive D e0 e hf hd] at h
        cases h
        exact hnodir fs path e0 e hf hd
      | ok files =>
        rw [BatchRename_dir os fuel fs path re repl recursive D e0 files hf hd] at h
        have key : ∀ (rest done : List FileInfo) (a a2 : Acc σ), files = done ++ rest →
            Q fs path files done a →
            walkEntries os (fun fs2 path2 => BatchRename os fuel fs2 path2 re repl recursive D)
              path re repl recursive D rest a = some a2 →
            Q fs path files (done ++ rest) a2 := by
          intro rest
          induction rest with
          | nil =>
            intro done a a2 _ hq hw
            simp only [walkEntries, Option.some.injEq] at hw
            subst hw
            simpa using hq
          | cons f rest ihr =>
            intro done a a2 hfiles hq hw
            simp only [walkEntries] at hw
            cases hv : visitEntry os
                (fun fs2 path2 => BatchRename os fuel fs2 path2 re repl recursive D)
                path re repl recursive D f a with
            | none => simp [hv] at hw
            | some a1 =>
              simp only [hv] at hw
              have hq1 := hstep _ (fun fs2 p r hr => ih fs2 p r hr) fs path files done f a a1
                ⟨rest, hfiles⟩ hq (visitEntry_visit os _ path re repl recursive D f a a1 hv)
              have := ihr (done ++ [f]) a1 a2 (by simp [hfiles]) hq1 hw
              simpa using this
        cases hw : walkEntries os
            (fun fs2 path2 => BatchRename os fuel fs2 path2 re repl recursive D)
            path re repl recursive D files ⟨fs, [Event.walk path, Event.list path files], 0⟩ with
        | none => simp [hw] at h
        | some a =>
          simp only [hw, Option.map_some', Option.some.injEq] at h
          subst h
          have := key files [] _ a rfl (hinit fs path e0 files hf hd) hw
          exact hfinal fs path e0 files a hf hd (by simpa using this)

/-! ## The count returned is the number of successful renames -/

theorem renamed_append (l1 l2 : List Event) : renamed (l1 ++ l2) = renamed l1 + renamed l2 := by
  induction l1 with
  | nil => simp [renamed]
  | cons ev rest ih =>
    rw [List.cons_append]
    cases ev with
    | osRename src dst err =>
      cases err with
      | none => simp only [renamed, ih]; omega
      | some e => simp only [renamed, ih]
    | _ => simp only [renamed, ih]

theorem renameEntry_count {σ : Type} (os : OS σ) (site : Site) (p : String) (re : Regexp)
    (repl : String) (a : Acc σ) (h : a.n = renamed a.log) :
    (renameEntry os site p re repl a).n = renamed (renameEntry os site p re repl a).log := by
  rcases renameEntry_cases os site p re repl a with h1 | ⟨e, dst, msg, h1⟩ | ⟨fs2, dst, h1⟩ <;>
    simp [h1, renamed_append, renamed, h]

theorem BatchRename_count {σ : Type} (os : OS σ) (re : Regexp) (repl : String)
    (recursive D : Bool) (fuel : Nat) (fs : σ) (path : String) (out : Out σ)
    (h : BatchRename os fuel fs path re repl recursive D = some out) :
    out.n = renamed out.log ∧ (out.err ≠ none → out.n = 0) := by
  refine BatchRename_induction os re repl recursive D
    (fun _ _ out => out.n = renamed out.log ∧ (out.err ≠ none → out.n = 0))
    (fun _ _ _ _ a => a.n = renamed a.log) ?_ ?_ ?_ ?_ ?_ fuel fs path out h
  · intro fs path u _
    rcases Rename_cases os fs path re repl with h1 | ⟨e, _, h1⟩ | ⟨fs2, _, h1⟩ <;>
      simp [h1, renamed]
  · intro fs path e0 e _ _
    simp [renamed]
  · intro fs path e0 files _ _
    simp [renamed]
  · intro sub hsub fs path files done f a a2 _ hq hv
    cases hv with
    | dot _ => exact hq
    | file _ _ _ => exact renameEntry_count os _ _ re repl a hq
    | flatRename _ _ _ _ _ => exact renameEntry_count os _ _ re repl a hq
    | flatSkip _ _ _ _ _ => exact hq
    | subError r e _ _ _ _ hs hre =>
      have := hsub _ _ r hs
      have h0 : r.n = 0 := this.2 (by simp [hre])
      have h1 : renamed r.log = 0 := by rw [← this.1]; exact h0
      simp [renamed_append, renamed, h1]
      exact hq
    | subRename r _ _ _ _ hs hre _ =>
      have := hsub _ _ r hs
      apply renameEntry_count
      simp [renamed_append, this.1]
      exact hq
    | subOnly r _ _ _ _ hs hre _ =>
      have := hsub _ _ r hs
      simp [renamed_append, this.1]
      exact hq
  · intro fs path e0 files a _ _ hq
    exact ⟨hq, by simp⟩

/-! ## Every entry of a snapshot is processed -/

theorem Processed_mono (recursive D : Bool) (path : String) (f : FileInfo)
    (log log2 : List Event) (hsub : ∀ ev ∈ log, ev ∈ log2)
    (h : Processed recursive D path f log) : Processed recursive D path f log2 :=
  ⟨fun h1 => hsub _ (h.1 h1), fun h1 h2 => hsub _ (h.2.1 h1 h2),
    fun h1 h2 h3 => hsub _ (h.2.2 h1 h2 h3)⟩

/-- The events added by `Rename` applied to an entry: the application itself,
then calls of `os.Rename` on that entry and printed lines. -/
theorem renameEntry_log {σ : Type} (os : OS σ) (site : Site) (p : String) (re : Regexp)
    (repl : String) (a : Acc σ) :
    ∃ new, (renameEntry os site p re repl a).log = a.log ++ Event.call site p :: new ∧
      ∀ ev ∈ new, (∃ dst e, ev = Event.osRename p dst e) ∨ (∃ msg, ev = Event.print msg) := by
  rcases renameEntry_cases os site p re repl a with h1 | ⟨e, dst, msg, h1⟩ | ⟨fs2, dst, h1⟩
  · exact ⟨[], by simp [h1], by simp⟩
  · refine ⟨[Event.osRename p dst (some e), Event.print msg], by simp [h1], ?_⟩
    intro ev hev
    simp only [List.mem_cons, List.mem_singleton, List.not_mem_nil, or_false] at hev
    rcases hev with h | h
    · exact Or.inl ⟨dst, some e, h⟩
    · exact Or.inr ⟨msg, h⟩
  · refine ⟨[Event.osRename p dst none], by simp [h1], ?_⟩
    intro ev hev
    simp only [List.mem_singleton] at hev
    exact Or.inl ⟨dst, none, hev⟩

/-- The invariant of the loop for `BatchRename_closed`. -/
theorem closed_step (recursive D : Bool) (path : String) (files done : List FileInfo)
    (f : FileInfo) (log new : List Event)
    (hq : Event.walk path ∈ log ∧ Event.list path files ∈ log ∧
      (∀ g ∈ done, g.Name ≠ "." → g.Name ≠ ".." → Processed recursive D path g log) ∧
      (∀ q fl, Event.list q fl ∈ log → (q = path ∧ fl = files) ∨
        ∀ g ∈ fl, g.Name ≠ "." → g.Name ≠ ".." → Processed recursive D q g log))
    (hf : f.Name ≠ "." → f.Name ≠ ".." → Processed recursive D path f (log ++ new))
    (hnew : ∀ q fl, Event.list q fl ∈ new →
      ∀ g ∈ fl, g.Name ≠ "." → g.Name ≠ ".." → Processed recursive D q g (log ++ new)) :
    Event.walk path ∈ log ++ new ∧ Event.list path files ∈ log ++ new ∧
      (∀ g ∈ done ++ [f], g.Name ≠ "." → g.Name ≠ ".." →
        Processed recursive D path g (log ++ new)) ∧
      (∀ q fl, Event.list q fl ∈ log ++ new → (q = path ∧ fl = files) ∨
        ∀ g ∈ fl, g.Name ≠ "." → g.Name ≠ ".." → Processed recursive D q g (log ++ new)) := by
  have hmono : ∀ ev ∈ log, ev ∈ log ++ new := fun ev h => List.mem_append_left _ h
  refine ⟨hmono _ hq.1, hmono _ hq.2.1, ?_, ?_⟩
  · intro g hg h1 h2
    rcases List.mem_append.1 hg with hg | hg
    · exact Processed_mono recursive D path g log _ hmono (hq.2.2.1 g hg h1 h2)
    · simp only [List.mem_singleton] at hg
      subst hg
      exact hf h1 h2
  · intro q fl hl
    rcases List.mem_append.1 hl with hl | hl
    · rcases hq.2.2.2 q fl hl with h | h
      · exact Or.inl h
      · exact Or.inr fun g hg h1 h2 => Processed_mono recursive D q g log _ hmono (h g hg h1 h2)
    · exact Or.inr (hnew q fl hl)

/-- In the events of a call of `BatchRename`: the call itself, the snapshot it
took if the path is a directory that could be listed, and every entry of every
snapshot taken is processed. -/
theorem BatchRename_closed {σ : Type} (os : OS σ) (re : Regexp) (repl : String)
    (recursive D : Bool) (fuel : Nat) (fs : σ) (path : String) (out : Out σ)
    (h : BatchRename os fuel fs path re repl recursive D = some out) :
    Event.walk path ∈ out.log ∧ Closed recursive D out.log ∧
      (∀ e0 files, os.ReadFile fs path = .error e0 → os.ReadDir fs path = .ok files →
        Event.list path files ∈ out.log) := by
  refine BatchRename_induction os re repl recursive D
    (fun fs path out => Event.walk path ∈ out.log ∧ Closed recursive D out.log ∧
      (∀ e0 files, os.ReadFile fs path = .error e0 → os.ReadDir fs path = .ok files →
        Event.list path files ∈ out.log))
    (fun _ path files done a => Event.walk path ∈ a.log ∧ Event.list path files ∈ a.log ∧
      (∀ g ∈ done, g.Name ≠ "." → g.Name ≠ ".." → Processed recursive D path g a.log) ∧
      (∀ q fl, Event.list q fl ∈ a.log → (q = path ∧ fl = files) ∨
        ∀ g ∈ fl, g.Name ≠ "." → g.Name ≠ ".." → Processed recursive D q g a.log))
    ?_ ?_ ?_ ?_ ?_ fuel fs path out h
  · intro fs path u hu
    refine ⟨by simp, ?_, ?_⟩
    · intro q fl hl
      rcases Rename_cases os fs path re repl with h1 | ⟨e, _, h1⟩ | ⟨fs2, _, h1⟩ <;>
        simp [h1] at hl
    · intro e0 files he0
      rw [hu] at he0
      cases he0
  · intro fs path e0 e _ hd
    refine ⟨by simp, ?_, ?_⟩
    · intro q fl hl
      simp at hl
    · intro e1 files _ hd2
      rw [hd] at hd2
      cases hd2
  · intro fs path e0 files _ _
    refine ⟨by simp, by simp, by simp, ?_⟩
    intro q fl hl
    simp only [List.mem_cons, List.mem_singleton, List.not_mem_nil, or_false] at hl
    rcases hl with hl | hl
    · cases hl
    · cases hl
      exact Or.inl ⟨rfl, rfl⟩
  · intro sub hsub fs path files done f a a2 _ hq hv
    cases hv with
    | dot hdot =>
      have := closed_step recursive D path files done f a.log [] hq
        (fun h1 h2 => by rcases hdot with h | h <;> contradiction) (by simp)
      simpa using this
    | file h1 h2 hdir =>
      obtain ⟨new, hlog, hnew⟩ := renameEntry_log os Site.fileEntry (Join [path, f.Name])
        re repl a
      rw [hlog]
      refine closed_step recursive D path files done f a.log _ hq ?_ ?_
      · intro _ _
        exact ⟨fun _ => by simp, fun h => by simp [hdir] at h, fun h => by simp [hdir] at h⟩
      · intro q fl hl
        simp only [List.mem_cons] at hl
        rcases hl with hl | hl
        · cases hl
        · rcases hnew _ hl with ⟨_, _, h⟩ | ⟨_, h⟩ <;> cases h
    | flatRename h1 h2 hdir hrec hD =>
      obtain ⟨new, hlog, hnew⟩ := renameEntry_log os Site.dirEntry (Join [path, f.Name])
        re repl a
      rw [hlog]
      refine closed_step recursive D path files done f a.log _ hq ?_ ?_
      · intro _ _
        exact ⟨fun h => by simp [hdir] at h, fun _ h => by simp [hrec] at h, fun _ _ _ => by simp⟩
      · intro q fl hl
        simp only [List.mem_cons] at hl
        rcases hl with hl | hl
        · cases hl
        · rcases hnew _ hl with ⟨_, _, h⟩ | ⟨_, h⟩ <;> cases h
    | flatSkip h1 h2 hdir hrec hD =>
      have := closed_step recursive D path files done f a.log [] hq
        (fun _ _ => ⟨fun h => by simp [hdir] at h, fun _ h => by simp [hrec] at h,
          fun _ _ h => by simp [hD] at h⟩) (by simp)
      simpa using this
    | subError r e h1 h2 hdir hrec hs hre =>
      obtain ⟨hw, hc, _⟩ := hsub _ _ r hs
      have hm : ∀ ev ∈ r.log, ev ∈ a.log ++ (r.log ++ [Event.print e]) := fun ev h =>
        List.mem_append_right _ (List.mem_append_left _ h)
      show _ ∧ _ ∧ _ ∧ _
      simp only [List.append_assoc]
      refine closed_step recursive D path files done f a.log _ hq ?_ ?_
      · intro _ _
        exact ⟨fun h => by simp [hdir] at h, fun _ _ => hm _ hw, fun _ h => by simp [hrec] at h⟩
      · intro q fl hl g hg g1 g2
        rcases List.mem_append.1 hl with hl | hl
        · exact Processed_mono recursive D q g r.log _ hm (hc q fl hl g hg g1 g2)
        · simp at hl
    | subRename r h1 h2 hdir hrec hs hre hD =>
      obtain ⟨hw, hc, _⟩ := hsub _ _ r hs
      obtain ⟨new, hlog, hnew⟩ := renameEntry_log os Site.dirEntry (Join [path, f.Name])
        re repl ⟨r.fs, a.log ++ r.log, a.n + r.n⟩
      rw [hlog]
      have hm : ∀ ev ∈ r.log,
          ev ∈ a.log ++ (r.log ++ Event.call Site.dirEntry (Join [path, f.Name]) :: new) :=
        fun ev h => List.mem_append_right _ (List.mem_append_left _ h)
      show _ ∧ _ ∧ _ ∧ _
      simp only [List.append_assoc]
      refine closed_step recursive D path files done f a.log _ hq ?_ ?_
      · intro _ _
        exact ⟨fun h => by simp [hdir] at h, fun _ _ => hm _ hw, fun _ h => by simp [hrec] at h⟩
      · intro q fl hl g hg g1 g2
        rcases List.mem_append.1 hl with hl | hl
        · exact Processed_mono recursive D q g r.log _ hm (hc q fl hl g hg g1 g2)
        · simp only [List.mem_cons] at hl
          rcases hl with hl | hl
          · cases hl
          · rcases hnew _ hl with ⟨_, _, h⟩ | ⟨_, h⟩ <;> cases h
    | subOnly r h1 h2 hdir hrec hs hre hD =>
      obtain ⟨hw, hc, _⟩ := hsub _ _ r hs
      have hm : ∀ ev ∈ r.log, ev ∈ a.log ++ r.log := fun ev h => List.mem_append_right _ h
      refine closed_step recursive D path files done f a.log _ hq ?_ ?_
      · intro _ _
        exact ⟨fun h => by simp [hdir] at h, fun _ _ => hm _ hw, fun _ h => by simp [hrec] at h⟩
      · intro q fl hl g hg g1 g2
        exact Processed_mono recursive D q g r.log _ hm (hc q fl hl g hg g1 g2)
  · intro fs path e0 files a hf hd hq
    refine ⟨hq.1, ?_, ?_⟩
    · intro q fl hl g hg g1 g2
      rcases hq.2.2.2 q fl hl with ⟨rfl, rfl⟩ | h
      · exact hq.2.2.1 g hg g1 g2
      · exact h g hg g1 g2
    · intro e1 files2 _ hd2
      rw [hd] at hd2
      cases hd2
      exact hq.2.1

/-! ## The paths a walk is about are reached from its own path -/

theorem Below_mono (log log2 : List Event) (p q : String)
    (hsub : ∀ ev ∈ log, ev ∈ log2) (h : Below log p q) : Below log2 p q := by
  induction h with
  | base => exact Below.base
  | step q fl f _ hl hf h1 h2 ih => exact Below.step q fl f ih (hsub _ hl) hf h1 h2

theorem Below_trans (log : List Event) (p q r : String) (h1 : Below log p q)
    (h2 : Below log q r) : Below log p r := by
  induction h2 with
  | base => exact h1
  | step s fl f _ hl hf g1 g2 ih => exact Below.step s fl f ih hl hf g1 g2

/-- Every event of a call of `BatchRename` is about a path reached from the path
of the call through the snapshots the call took. -/
theorem BatchRename_below {σ : Type} (os : OS σ) (re : Regexp) (repl : String)
    (recursive D : Bool) (fuel : Nat) (fs : σ) (path : String) (out : Out σ)
    (h : BatchRename os fuel fs path re repl recursive D = some out) :
    ∀ ev ∈ out.log, ∀ q, ev.subject = some q → Below out.log path q := by
  refine BatchRename_induction os re repl recursive D
    (fun _ path out => ∀ ev ∈ out.log, ∀ q, ev.subject = some q → Below out.log path q)
    (fun _ path files _ a => Event.list path files ∈ a.log ∧
      ∀ ev ∈ a.log, ∀ q, ev.subject = some q → Below a.log path q)
    ?_ ?_ ?_ ?_ ?_ fuel fs path out h
  · intro fs path u _ ev hev q hq
    rcases Rename_cases os fs path re repl with h1 | ⟨e, _, h1⟩ | ⟨fs2, _, h1⟩ <;>
      simp only [h1, List.cons_append, List.nil_append, List.mem_cons, List.mem_singleton,
        List.not_mem_nil, or_false] at hev <;>
      rcases hev with rfl | rfl | rfl | rfl <;>
      simp only [Event.subject, Option.some.injEq] at hq <;>
      first
        | (subst hq; exact Below.base)
        | cases hq
  · intro fs path e0 e _ _ ev hev q hq
    simp only [List.mem_singleton] at hev
    subst hev
    simp only [Event.subject, Option.some.injEq] at hq
    subst hq
    exact Below.base
  · intro fs path e0 files _ _
    refine ⟨by simp, ?_⟩
    intro ev hev q hq
    simp only [List.mem_cons, List.mem_singleton, List.not_mem_nil, or_false] at hev
    rcases hev with rfl | rfl <;>
      simp only [Event.subject, Option.some.injEq] at hq <;>
      (subst hq; exact Below.base)
  · intro sub hsub fs path files done f a a2 hmem hq hv
    obtain ⟨hl, hq⟩ := hq
    have hfmem : f ∈ files := by
      obtain ⟨rest, hr⟩ := hmem
      simp [hr]
    -- the events so far, extended by `new`
    have hold : ∀ new : List Event, ∀ ev ∈ a.log, ∀ q, ev.subject = some q →
        Below (a.log ++ new) path q := fun new ev hev q hq2 =>
      Below_mono a.log _ path q (fun ev2 h2 => List.mem_append_left _ h2) (hq ev hev q hq2)
    have hchild : f.Name ≠ "." → f.Name ≠ ".." → ∀ new : List Event,
        Below (a.log ++ new) path (Join [path, f.Name]) := fun h1 h2 new =>
      Below.step path files f Below.base (List.mem_append_left _ hl) hfmem h1 h2
    -- the events of `Rename` applied to the entry
    have hren : f.Name ≠ "." → f.Name ≠ ".." → ∀ (site : Site) (b : Acc σ) (mid : List Event),
        b.log = a.log ++ mid →
        (∀ ev ∈ b.log, ∀ q, ev.subject = some q → ∀ new, Below (b.log ++ new) path q) →
        Event.list path files ∈ (renameEntry os site (Join [path, f.Name]) re repl b).log ∧
        ∀ ev ∈ (renameEntry os site (Join [path, f.Name]) re repl b).log,
          ∀ q, ev.subject = some q →
            Below (renameEntry os site (Join [path, f.Name]) re repl b).log path q := by
      intro h1 h2 site b mid hb hbq
      obtain ⟨new, hlog, hnew⟩ := renameEntry_log os site (Join [path, f.Name]) re repl b
      rw [hlog]
      refine ⟨by rw [hb]; simp [hl], ?_⟩
      have hc : Below (b.log ++ Event.call site (Join [path, f.Name]) :: new) path
          (Join [path, f.Name]) := by
        rw [hb, List.append_assoc]
        exact hchild h1 h2 _
      intro ev hev q hq2
      rcases List.mem_append.1 hev with hev | hev
      · exact hbq ev hev q hq2 _
      · simp only [List.mem_cons] at hev
        rcases hev with rfl | hev
        · simp only [Event.subject, Option.some.injEq] at hq2
          subst hq2
          exact hc
        · rcases hnew _ hev with ⟨_, _, rfl⟩ | ⟨_, rfl⟩
          · simp only [Event.subject, Option.some.injEq] at hq2
            subst hq2
            exact hc
          · cases hq2
    -- the events of the walk of the subdirectory
    have hsublog : f.Name ≠ "." → f.Name ≠ ".." →
        ∀ r, sub a.fs (Join [path, f.Name]) = some r →
        ∀ ev ∈ a.log ++ r.log, ∀ q, ev.subject = some q →
          ∀ new, Below (a.log ++ r.log ++ new) path q := by
      intro h1 h2 r hs ev hev q hq2 new
      rcases List.mem_append.1 hev with hev | hev
      · rw [List.append_assoc]
        exact hold _ ev hev q hq2
      · have hb := hsub _ _ r hs ev hev q hq2
        have hb2 : Below (a.log ++ r.log ++ new) (Join [path, f.Name]) q :=
          Below_mono r.log _ _ q
            (fun ev2 h2 => List.mem_append_left _ (List.mem_append_right _ h2)) hb
        have hc : Below (a.log ++ r.log ++ new) path (Join [path, f.Name]) := by
          rw [List.append_assoc]
          exact hchild h1 h2 _
        exact Below_trans _ _ _ _ hc hb2
    cases hv with
    | dot _ => exact ⟨hl, hq⟩
    | file h1 h2 _ =>
      exact hren h1 h2 _ a [] (by simp) (fun ev hev q hq2 new => hold new ev hev q hq2)
    | flatRename h1 h2 _ _ _ =>
      exact hren h1 h2 _ a [] (by simp) (fun ev hev q hq2 new => hold new ev hev q hq2)
    | flatSkip _ _ _ _ _ => exact ⟨hl, hq⟩
    | subError r e h1 h2 _ _ hs hre =>
      refine ⟨by simp [hl], ?_⟩
      intro ev hev q hq2
      rcases List.mem_append.1 hev with hev | hev
      · exact hsublog h1 h2 r hs ev hev q hq2 _
      · simp only [List.mem_singleton] at hev
        subst hev
        cases hq2
    | subRename r h1 h2 _ _ hs hre _ =>
      exact hren h1 h2 _ ⟨r.fs, a.log ++ r.log, a.n + r.n⟩ r.log rfl (hsublog h1 h2 r hs)
    | subOnly r h1 h2 _ _ hs hre _ =>
      refine ⟨by simp [hl], ?_⟩
      intro ev hev q hq2
      have := hsublog h1 h2 r hs ev hev q hq2 []
      simpa using this
  · intro fs path e0 files a _ _ hq
    exact hq.2

/-- Every snapshot recorded by a call of `BatchRename` is a listing that
`ioutil.ReadDir` returned for that path. -/
theorem BatchRename_listed {σ : Type} (os : OS σ) (re : Regexp) (repl : String)
    (recursive D : Bool) (fuel : Nat) (fs : σ) (path : String) (out : Out σ)
    (h : BatchRename os fuel fs path re repl recursive D = some out) :
    ∀ q fl, Event.list q fl ∈ out.log → ∃ s, os.ReadDir s q = .ok fl := by
  refine BatchRename_induction os re repl recursive D
    (fun _ _ out => ∀ q fl, Event.list q fl ∈ out.log → ∃ s, os.ReadDir s q = .ok fl)
    (fun _ _ _ _ a => ∀ q fl, Event.list q fl ∈ a.log → ∃ s, os.ReadDir s q = .ok fl)
    ?_ ?_ ?_ ?_ ?_ fuel fs path out h
  · intro fs path u _ q fl hl
    rcases Rename_cases os fs path re repl with h1 | ⟨e, _, h1⟩ | ⟨fs2, _, h1⟩ <;>
      simp [h1] at hl
  · intro fs path e0 e _ _ q fl hl
    simp at hl
  · intro fs path e0 files _ hd q fl hl
    simp only [List.mem_cons, List.mem_singleton, List.not_mem_nil, or_false] at hl
    rcases hl with hl | hl
    · cases hl
    · cases hl
      exact ⟨fs, hd⟩
  · intro sub hsub fs path files done f a a2 _ hq hv
    have hren : ∀ (site : Site) (b : Acc σ),
        (∀ q fl, Event.list q fl ∈ b.log → ∃ s, os.ReadDir s q = .ok fl) →
        ∀ q fl, Event.list q fl ∈ (renameEntry os site (Join [path, f.Name]) re repl b).log →
          ∃ s, os.ReadDir s q = .ok fl := by
      intro site b hb q fl hl
      obtain ⟨new, hlog, hnew⟩ := renameEntry_log os site (Join [path, f.Name]) re repl b
      rw [hlog] at hl
      rcases List.mem_append.1 hl with hl | hl
      · exact hb q fl hl
      · simp only [List.mem_cons] at hl
        rcases hl with hl | hl
        · cases hl
        · rcases hnew _ hl with ⟨_, _, h⟩ | ⟨_, h⟩ <;> cases h
    have hsublog : ∀ r, sub a.fs (Join [path, f.Name]) = some r →
        ∀ q fl, Event.list q fl ∈ a.log ++ r.log → ∃ s, os.ReadDir s q = .ok fl := by
      intro r hs q fl hl
      rcases List.mem_append.1 hl with hl | hl
      · exact hq q fl hl
      · exact hsub _ _ r hs q fl hl
    cases hv with
    | dot _ => exact hq
    | file _ _ _ => exact hren _ a hq
    | flatRename _ _ _ _ _ => exact hren _ a hq
    | flatSkip _ _ _ _ _ => exact hq
    | subError r e _ _ _ _ hs hre =>
      intro q fl hl
      rcases List.mem_append.1 hl with hl | hl
      · exact hsublog r hs q fl hl
      · simp at hl
    | subRename r _ _ _ _ hs hre _ => exact hren _ _ (hsublog r hs)
    | subOnly r _ _ _ _ hs hre _ => exact hsublog r hs
  · intro fs path e0 files a _ _ hq
    exact hq

/-! ## Without directory renaming -/

/-- When directories are not renamed, `Rename` is never applied from the
subdirectory branch; every call of `os.Rename` has as source a path to which
`Rename` was applied, either as the path of a walk that was read as a file or as
an entry that is not a directory; and such an entry comes from a snapshot that
says it is not a directory. -/
theorem BatchRename_nodirs {σ : Type} (os : OS σ) (re : Regexp) (repl : String)
    (recursive : Bool) (fuel : Nat) (fs : σ) (path : String) (out : Out σ)
    (h : BatchRename os fuel fs path re repl recursive false = some out) :
    (∀ p, Event.call Site.dirEntry p ∉ out.log) ∧
    (∀ src dst e, Event.osRename src dst e ∈ out.log →
      Event.call Site.top src ∈ out.log ∨ Event.call Site.fileEntry src ∈ out.log) ∧
    (∀ q, Event.call Site.fileEntry q ∈ out.log →
      ∃ p fl f, Event.list p fl ∈ out.log ∧ f ∈ fl ∧ f.IsDir = false ∧ q = Join [p, f.Name]) := by
  refine BatchRename_induction os re repl recursive false
    (fun _ _ out => (∀ p, Event.call Site.dirEntry p ∉ out.log) ∧
      (∀ src dst e, Event.osRename src dst e ∈ out.log →
        Event.call Site.top src ∈ out.log ∨ Event.call Site.fileEntry src ∈ out.log) ∧
      (∀ q, Event.call Site.fileEntry q ∈ out.log →
        ∃ p fl f, Event.list p fl ∈ out.log ∧ f ∈ fl ∧ f.IsDir = false ∧
          q = Join [p, f.Name]))
    (fun _ path files _ a => Event.list path files ∈ a.log ∧
      (∀ p, Event.call Site.dirEntry p ∉ a.log) ∧
      (∀ src dst e, Event.osRename src dst e ∈ a.log →
        Event.call Site.top src ∈ a.log ∨ Event.call Site.fileEntry src ∈ a.log) ∧
      (∀ q, Event.call Site.fileEntry q ∈ a.log →
        ∃ p fl f, Event.list p fl ∈ a.log ∧ f ∈ fl ∧ f.IsDir = false ∧
          q = Join [p, f.Name]))
    ?_ ?_ ?_ ?_ ?_ fuel fs path out h
  · intro fs path u _
    rcases Rename_cases os fs path re repl with h1 | ⟨e, _, h1⟩ | ⟨fs2, _, h1⟩ <;>
      simp [h1] <;> intro _ _ _ h _ _ <;> exact h
  · intro fs path e0 e _ _
    simp
  · intro fs path e0 files _ _
    simp
  · intro sub hsub fs path files done f a a2 hmem hq hv
    obtain ⟨hl, hq1, hq2, hq3⟩ := hq
    have hfmem : f ∈ files := by
      obtain ⟨rest, hr⟩ := hmem
      simp [hr]
    -- a sub-walk only adds events that keep the invariant
    have hsubq : ∀ r, sub a.fs (Join [path, f.Name]) = some r → ∀ tail : List Event,
        (∀ ev ∈ tail, ∃ msg, ev = Event.print msg) →
        (Event.list path files ∈ a.log ++ r.log ++ tail ∧
        (∀ p, Event.call Site.dirEntry p ∉ a.log ++ r.log ++ tail) ∧
        (∀ src dst e, Event.osRename src dst e ∈ a.log ++ r.log ++ tail →
          Event.call Site.top src ∈ a.log ++ r.log ++ tail ∨
            Event.call Site.fileEntry src ∈ a.log ++ r.log ++ tail) ∧
        (∀ q, Event.call Site.fileEntry q ∈ a.log ++ r.log ++ tail →
          ∃ p fl f, Event.list p fl ∈ a.log ++ r.log ++ tail ∧ f ∈ fl ∧ f.IsDir = false ∧
            q = Join [p, f.Name])) := by
      intro r hs tail htail
      obtain ⟨r1, r2, r3⟩ := hsub _ _ r hs
      have htl : ∀ ev ∈ tail, ∀ P : Prop, (∀ msg, ev ≠ Event.print msg) → P := by
        intro ev hev P hP
        obtain ⟨msg, hm⟩ := htail ev hev
        exact absurd hm (hP msg)
      refine ⟨by simp [hl], ?_, ?_, ?_⟩
      · intro p hp
        simp only [List.mem_append] at hp
        rcases hp with (hp | hp) | hp
        · exact hq1 p hp
        · exact r1 p hp
        · exact htl _ hp _ (by simp)
      · intro src dst e hp
        simp only [List.mem_append] at hp ⊢
        rcases hp with (hp | hp) | hp
        · rcases hq2 src dst e hp with h | h
          · exact Or.inl (Or.inl (Or.inl h))
          · exact Or.inr (Or.inl (Or.inl h))
        · rcases r2 src dst e hp with h | h
          · exact Or.inl (Or.inl (Or.inr h))
          · exact Or.inr (Or.inl (Or.inr h))
        · exact htl _ hp _ (by simp)
      · intro q hp
        simp only [List.mem_append] at hp ⊢
        rcases hp with (hp | hp) | hp
        · obtain ⟨p, fl, g, h1, h2, h3, h4⟩ := hq3 q hp
          exact ⟨p, fl, g, Or.inl (Or.inl h1), h2, h3, h4⟩
        · obtain ⟨p, fl, g, h1, h2, h3, h4⟩ := r3 q hp
          exact ⟨p, fl, g, Or.inl (Or.inr h1), h2, h3, h4⟩
        · exact htl _ hp _ (by simp)
    cases hv with
    | dot _ => exact ⟨hl, hq1, hq2, hq3⟩
    | file h1 h2 hdir =>
      obtain ⟨new, hlog, hnew⟩ := renameEntry_log os Site.fileEntry (Join [path, f.Name])
        re repl a
      rw [hlog]
      refine ⟨by simp [hl], ?_, ?_, ?_⟩
      · intro p hp
        simp only [List.mem_append, List.mem_cons] at hp
        rcases hp with hp | hp | hp
        · exact hq1 p hp
        · cases hp
        · rcases hnew _ hp with ⟨_, _, h⟩ | ⟨_, h⟩ <;> cases h
      · intro src dst e hp
        simp only [List.mem_append, List.mem_cons] at hp ⊢
        rcases hp with hp | hp | hp
        · rcases hq2 src dst e hp with h | h
          · exact Or.inl (Or.inl h)
          · exact Or.inr (Or.inl h)
        · cases hp
        · rcases hnew _ hp with ⟨_, _, h⟩ | ⟨_, h⟩
          · cases h
            exact Or.inr (Or.inr (Or.inl rfl))
          · cases h
      · intro q hp
        simp only [List.mem_append, List.mem_cons] at hp ⊢
        rcases hp with hp | hp | hp
        · obtain ⟨p, fl, g, g1, g2, g3, g4⟩ := hq3 q hp
          exact ⟨p, fl, g, Or.inl g1, g2, g3, g4⟩
        · cases hp
          exact ⟨path, files, f, Or.inl hl, hfmem, hdir, rfl⟩
        · rcases hnew _ hp with ⟨_, _, h⟩ | ⟨_, h⟩ <;> cases h
    | flatRename _ _ _ _ hD => cases hD
    | flatSkip _ _ _ _ _ => exact ⟨hl, hq1, hq2, hq3⟩
    | subError r e _ _ _ _ hs hre =>
      exact hsubq r hs [Event.print e] (by simp)
    | subRename r _ _ _ _ hs hre hD => cases hD
    | subOnly r _ _ _ _ hs hre _ =>
      have := hsubq r hs [] (by simp)
      simpa using this
  · intro fs path e0 files a _ _ hq
    exact hq.2

/-! ## Lemmas on `path/filepath` -/

theorem isPathSeparator_iff (c : Char) : IsPathSeparator c = true ↔ c = Separator := by
  simp [IsPathSeparator]

theorem splitSep_ne_nil (l : List Char) : splitSep l ≠ [] := by
  cases l with
  | nil => simp [splitSep]
  | cons c cs =>
    simp only [splitSep]
    split
    · simp
    · split <;> simp

theorem splitSep_append (a b : List Char) :
    splitSep (a ++ Separator :: b) = splitSep a ++ splitSep b := by
  induction a with
  | nil => simp [splitSep, IsPathSeparator]
  | cons c a ih =>
    rw [List.cons_append]
    simp only [splitSep]
    rw [ih]
    by_cases hc : IsPathSeparator c = true
    · simp [hc]
    · simp only [hc]
      cases hs : splitSep a with
      | nil => exact absurd hs (splitSep_ne_nil a)
      | cons x xs => simp

theorem splitSep_plain (e : List Char) (h : Separator ∉ e) : splitSep e = [e] := by
  induction e with
  | nil => simp [splitSep]
  | cons c e ih =>
    have hc : IsPathSeparator c = false := by
      cases hsep : IsPathSeparator c with
      | false => rfl
      | true => exact absurd ((isPathSeparator_iff c).1 hsep) (fun h2 => h (by simp [h2]))
    have he : Separator ∉ e := fun h2 => h (List.mem_cons_of_mem _ h2)
    simp [splitSep, hc, ih he]

theorem splitSep_joinSep (xs : List (List Char)) (hne : xs ≠ [])
    (h : ∀ x ∈ xs, Separator ∉ x) : splitSep (joinSep xs) = xs := by
  induction xs with
  | nil => exact absurd rfl hne
  | cons x rest ih =>
    cases rest with
    | nil => simpa [joinSep] using splitSep_plain x (h x (by simp))
    | cons y rest =>
      simp only [joinSep]
      rw [splitSep_append, splitSep_plain x (h x (by simp)),
        ih (by simp) (fun z hz => h z (List.mem_cons_of_mem _ hz))]
      simp

theorem splitSep_mem (l : List Char) : ∀ e ∈ splitSep l, Separator ∉ e := by
  induction l with
  | nil => simp [splitSep]
  | cons c cs ih =>
    intro e he
    simp only [splitSep] at he
    by_cases hc : IsPathSeparator c = true
    · simp only [hc, if_true, List.mem_cons] at he
      rcases he with rfl | he
      · simp
      · exact ih e he
    · cases hs : splitSep cs with
      | nil => exact absurd hs (splitSep_ne_nil cs)
      | cons x xs =>
        rw [hs] at ih
        simp only [hc, hs, if_false] at he
        cases he with
        | head =>
          intro hmem
          simp only [List.mem_cons] at hmem
          rcases hmem with h | h
          · exact hc ((isPathSeparator_iff c).2 h.symm)
          · exact ih x (by simp) h
        | tail _ he2 => exact ih e (List.mem_cons_of_mem _ he2)

theorem splitSep_length (l : List Char) : (splitSep l).length ≤ l.length + 1 := by
  induction l with
  | nil => simp [splitSep]
  | cons c cs ih =>
    simp only [splitSep]
    by_cases hc : IsPathSeparator c = true
    · simp [hc]; omega
    · simp only [hc]
      cases hs : splitSep cs with
      | nil => simp
      | cons x xs =>
        rw [hs] at ih
        simp at ih ⊢
        omega

theorem elemOK_dotdot : ElemOK dotdot := by
  refine ⟨by simp [dotdot], by simp [dotdot], ?_⟩
  simp [dotdot, Separator]

theorem NormalForm_mem (r : Bool) (out : List (List Char)) (h : NormalForm r out) :
    ∀ e ∈ out, ElemOK e := by
  induction out with
  | nil => simp
  | cons x out ih =>
    intro e he
    rcases List.mem_cons.1 he with rfl | he
    · exact h.1
    · exact ih h.2.2 e he

theorem NormalForm_suffix (r : Bool) (a b : List (List Char)) (h : NormalForm r (a ++ b)) :
    NormalForm r b := by
  induction a with
  | nil => simpa using h
  | cons x a ih => exact ih h.2.2

theorem cleanStep_normal (r : Bool) (out : List (List Char)) (e : List Char)
    (h : NormalForm r out) (he : Separator ∉ e) : NormalForm r (cleanStep r out e) := by
  unfold cleanStep
  by_cases h1 : e = []
  · simp [h1, h]
  · by_cases h2 : e = ['.']
    · simp [h2, h]
    · by_cases h3 : e = dotdot
      · subst h3
        rw [if_neg h1, if_neg h2, if_pos rfl]
        cases out with
        | nil =>
          cases r with
          | true => simpa using h
          | false => exact ⟨elemOK_dotdot, fun _ => ⟨rfl, Or.inl rfl⟩, trivial⟩
        | cons top rest =>
          by_cases ht : top = dotdot
          · cases r with
            | true => simpa [ht] using h
            | false =>
              simp only [ht, if_true]
              exact ⟨elemOK_dotdot, fun _ => ⟨rfl, Or.inr ⟨rest, rfl⟩⟩, by rw [← ht]; exact h⟩
          · simp only [ht, if_false]
            exact h.2.2
      · rw [if_neg h1, if_neg h2, if_neg h3]
        exact ⟨⟨h1, h2, he⟩, fun h4 => absurd h4 h3, h⟩

theorem foldl_normal (r : Bool) (xs : List (List Char)) (init : List (List Char))
    (h : NormalForm r init) (hxs : ∀ e ∈ xs, Separator ∉ e) :
    NormalForm r (xs.foldl (cleanStep r) init) := by
  induction xs generalizing init with
  | nil => simpa using h
  | cons x xs ih =>
    simp only [List.foldl_cons]
    exact ih _ (cleanStep_normal r init x h (hxs x (by simp)))
      (fun e he => hxs e (List.mem_cons_of_mem _ he))

theorem cleanStep_push (r : Bool) (out : List (List Char)) (e : List Char)
    (h : NormalForm r (e :: out)) : cleanStep r out e = e :: out := by
  obtain ⟨⟨h1, h2, _⟩, h3, _⟩ := h
  unfold cleanStep
  rw [if_neg h1, if_neg h2]
  by_cases h4 : e = dotdot
  · rw [if_pos h4]
    obtain ⟨hr, hout⟩ := h3 h4
    rcases hout with rfl | ⟨rest, rfl⟩
    · simp [hr]
    · simp [hr]
  · rw [if_neg h4]

theorem foldl_fix (r : Bool) (xs : List (List Char)) (init : List (List Char))
    (h : NormalForm r (xs.reverse ++ init)) :
    xs.foldl (cleanStep r) init = xs.reverse ++ init := by
  induction xs generalizing init with
  | nil => simp
  | cons x xs ih =>
    have h2 : NormalForm r (xs.reverse ++ (x :: init)) := by
      simpa [List.reverse_cons, List.append_assoc] using h
    have h3 : NormalForm r (x :: init) := NormalForm_suffix r _ _ h2
    simp only [List.foldl_cons, cleanStep_push r init x h3, ih _ h2]
    simp [List.reverse_cons, List.append_assoc]

theorem cleanStep_length (r : Bool) (out : List (List Char)) (e : List Char) :
    (cleanStep r out e).length ≤ out.length + 1 := by
  unfold cleanStep
  split
  · omega
  · split
    · omega
    · split
      · split
        · split <;> simp
        · split
          · split <;> simp
          · simp; omega
      · simp

theorem foldl_length (r : Bool) (xs : List (List Char)) (init : List (List Char)) :
    (xs.foldl (cleanStep r) init).length ≤ init.length + xs.length := by
  induction xs generalizing init with
  | nil => simp
  | cons x xs ih =>
    simp only [List.foldl_cons, List.length_cons]
    have h1 := ih (cleanStep r init x)
    have h2 := cleanStep_length r init x
    omega

theorem cleanElems_normal (p : List Char) : NormalForm (rooted p) (cleanElems p).reverse := by
  simp only [cleanElems, List.reverse_reverse]
  exact foldl_normal _ _ _ trivial (splitSep_mem p)

theorem cleanElems_length (p : List Char) : (cleanElems p).length ≤ p.length + 1 := by
  simp only [cleanElems, List.length_reverse]
  have h1 := foldl_length (rooted p) (splitSep p) []
  have h2 := splitSep_length p
  simp at h1
  omega

theorem rooted_of_elemOK (x : List Char) (tail : List Char) (h : ElemOK x) :
    rooted (x ++ tail) = false := by
  obtain ⟨h1, _, h3⟩ := h
  cases x with
  | nil => exact absurd rfl h1
  | cons c x =>
    simp only [List.cons_append, rooted]
    cases hc : IsPathSeparator c with
    | false => rfl
    | true => exact absurd ((isPathSeparator_iff c).1 hc) (fun h2 => h3 (by simp [h2]))

theorem joinSep_cons (x : List Char) (rest : List (List Char)) :
    ∃ tail, joinSep (x :: rest) = x ++ tail := by
  cases rest with
  | nil => exact ⟨[], by simp [joinSep]⟩
  | cons y rest => exact ⟨Separator :: joinSep (y :: rest), by simp [joinSep]⟩

theorem rooted_render (r : Bool) (l : List (List Char)) (h : NormalForm r l.reverse) :
    rooted (render r l) = r := by
  cases r with
  | true => simp [render, rooted, IsPathSeparator]
  | false =>
    cases l with
    | nil => simp [render, rooted, IsPathSeparator, Separator]
    | cons x rest =>
      obtain ⟨tail, ht⟩ := joinSep_cons x rest
      have hx : ElemOK x := NormalForm_mem false _ h x (by simp)
      simp only [render, ht, Bool.false_eq_true, if_false]
      simpa using rooted_of_elemOK x tail hx

theorem foldl_render (r : Bool) (l : List (List Char)) (h : ∀ x ∈ l, Separator ∉ x) :
    (splitSep (render r l)).foldl (cleanStep r) [] = l.foldl (cleanStep r) [] := by
  cases l with
  | nil =>
    cases r with
    | true => simp [render, joinSep, splitSep, IsPathSeparator, cleanStep]
    | false => simp [render, splitSep, IsPathSeparator, Separator, cleanStep]
  | cons x rest =>
    cases r with
    | true =>
      simp only [render, if_true, splitSep, IsPathSeparator, beq_self_eq_true,
        List.foldl_cons, cleanStep]
      rw [splitSep_joinSep _ (by simp) h]
      simp [cleanStep]
    | false =>
      simp only [render, Bool.false_eq_true, if_false]
      rw [if_neg (by simp), splitSep_joinSep _ (by simp) h]

theorem cleanElems_render (r : Bool) (l : List (List Char)) (h : NormalForm r l.reverse) :
    cleanElems (render r l) = l := by
  have hmem : ∀ x ∈ l, Separator ∉ x := fun x hx =>
    (NormalForm_mem r _ h x (by simpa using hx)).2.2
  unfold cleanElems
  rw [rooted_render r l h, foldl_render r l hmem, foldl_fix r l [] (by simpa using h)]
  simp

/-- The function `filepath.Clean` leaves its own output unchanged. -/
theorem cleanChars_render (r : Bool) (l : List (List Char)) (h : NormalForm r l.reverse) :
    cleanChars (render r l) = render r l := by
  unfold cleanChars
  rw [cleanElems_render r l h, rooted_render r l h]

theorem cleanElems_snoc (p n : List Char) (hp : p ≠ [])
    (hn : n ≠ [] ∧ n ≠ ['.'] ∧ n ≠ dotdot ∧ Separator ∉ n) :
    rooted (p ++ Separator :: n) = rooted p ∧
      cleanElems (p ++ Separator :: n) = cleanElems p ++ [n] := by
  have hr : rooted (p ++ Separator :: n) = rooted p := by
    cases p with
    | nil => exact absurd rfl hp
    | cons c p => simp [rooted]
  refine ⟨hr, ?_⟩
  unfold cleanElems
  rw [hr, splitSep_append, splitSep_plain n hn.2.2.2, List.foldl_append]
  simp only [List.foldl_cons, List.foldl_nil]
  have : cleanStep (rooted p) ((splitSep p).foldl (cleanStep (rooted p)) []) n =
      n :: (splitSep p).foldl (cleanStep (rooted p)) [] := by
    unfold cleanStep
    rw [if_neg hn.1, if_neg hn.2.1, if_neg hn.2.2.1]
  rw [this]
  simp

theorem cleanElems_single (n : List Char)
    (hn : n ≠ [] ∧ n ≠ ['.'] ∧ n ≠ dotdot ∧ Separator ∉ n) :
    rooted n = false ∧ cleanElems n = [n] := by
  have hr : rooted n = false := by
    simpa using rooted_of_elemOK n [] ⟨hn.1, hn.2.1, hn.2.2.2⟩
  refine ⟨hr, ?_⟩
  unfold cleanElems
  rw [hr, splitSep_plain n hn.2.2.2]
  simp only [List.foldl_cons, List.foldl_nil]
  unfold cleanStep
  rw [if_neg hn.1, if_neg hn.2.1, if_neg hn.2.2.1]
  simp

/-! ## Lemmas on `filepath.Split` -/

/-- The function `filepath.Split` cuts a path in two parts; the file name has no
separator and the directory part is empty or ends with a separator. -/
theorem Split_spec (path : String) :
    (Split path).1 ++ (Split path).2 = path ∧ Separator ∉ (Split path).2.data ∧
      ((Split path).1 = "" ∨ ∃ q, (Split path).1.data = q ++ [Separator]) := by
  refine ⟨?_, ?_, ?_⟩
  · apply String.ext
    simp only [Split, String.data_append]
    rw [← List.reverse_append, List.takeWhile_append_dropWhile, List.reverse_reverse]
  · simp only [Split, List.mem_reverse]
    intro h
    have := List.mem_takeWhile_imp h
    simp [IsPathSeparator] at this
  · simp only [Split]
    cases hd : List.dropWhile (fun c => !IsPathSeparator c) path.data.reverse with
    | nil => left; rfl
    | cons c rest =>
      right
      have hne : List.dropWhile (fun c => !IsPathSeparator c) path.data.reverse ≠ [] := by
        simp [hd]
      have := List.head_dropWhile_not (fun c => !IsPathSeparator c) path.data.reverse hne
      simp only [hd, List.head_cons, Bool.not_not] at this
      have hc : c = Separator := (isPathSeparator_iff c).1 (by simpa using this)
      exact ⟨rest.reverse, by simp [hc]⟩

theorem Split_append (pre n : List Char) (hpre : pre = [] ∨ ∃ q, pre = q ++ [Separator])
    (hn : Separator ∉ n) : Split ⟨pre ++ n⟩ = (⟨pre⟩, ⟨n⟩) := by
  have hall : ∀ a ∈ n.reverse, (fun c => !IsPathSeparator c) a = true := by
    intro a ha
    simp only [Bool.not_eq_true', IsPathSeparator, beq_eq_false_iff_ne, ne_eq]
    rintro rfl
    exact hn (by simpa using ha)
  simp only [Split, List.reverse_append]
  rw [List.takeWhile_append_of_pos hall, List.dropWhile_append_of_pos hall]
  rcases hpre with rfl | ⟨q, rfl⟩
  · simp
  · simp [IsPathSeparator]

theorem joinSep_cons_ne (x : List Char) (t : List (List Char)) (ht : t ≠ []) :
    joinSep (x :: t) = x ++ Separator :: joinSep t := by
  cases t with
  | nil => exact absurd rfl ht
  | cons y rest => rfl

theorem joinSep_snoc (l : List (List Char)) (n : List Char) (hl : l ≠ []) :
    joinSep (l ++ [n]) = joinSep l ++ Separator :: n := by
  induction l with
  | nil => exact absurd rfl hl
  | cons x rest ih =>
    cases rest with
    | nil => simp [joinSep]
    | cons y rest =>
      rw [List.cons_append, joinSep_cons_ne x _ (by simp), ih (by simp),
        joinSep_cons_ne x _ (by simp)]
      simp

theorem render_snoc (r : Bool) (l : List (List Char)) (n : List Char) :
    render r (l ++ [n]) = dirPart r l ++ n := by
  by_cases hl : l = []
  · subst hl
    cases r <;> simp [render, dirPart, joinSep]
  · cases r with
    | true => simp [render, dirPart, hl, joinSep_snoc l n hl]
    | false => simp [render, dirPart, hl, joinSep_snoc l n hl]

theorem dirPart_shape (r : Bool) (l : List (List Char)) :
    dirPart r l = [] ∨ ∃ q, dirPart r l = q ++ [Separator] := by
  unfold dirPart
  by_cases hl : l = []
  · cases r with
    | true => right; exact ⟨[], by simp [hl]⟩
    | false => left; simp [hl]
  · right
    exact ⟨render r l, by simp [hl]⟩

theorem cleanChars_trailing (x : List Char) (hx : x ≠ []) :
    cleanChars (x ++ [Separator]) = cleanChars x := by
  have hr : rooted (x ++ [Separator]) = rooted x := by
    cases x with
    | nil => exact absurd rfl hx
    | cons c x => simp [rooted]
  unfold cleanChars cleanElems
  rw [hr, splitSep_append]
  simp [splitSep, cleanStep]

theorem render_ne_nil (r : Bool) (l : List (List Char)) (hl : l ≠ [])
    (h : NormalForm r l.reverse) : render r l ≠ [] := by
  cases r with
  | true => simp [render]
  | false =>
    cases l with
    | nil => exact absurd rfl hl
    | cons x rest =>
      obtain ⟨tail, ht⟩ := joinSep_cons x rest
      have hx : ElemOK x := NormalForm_mem false _ h x (by simp)
      simp only [render, Bool.false_eq_true, if_false, ht]
      rw [if_neg (by simp)]
      intro h0
      have : x = [] := by
        cases x with
        | nil => rfl
        | cons c x => simp at h0
      exact hx.1 this

theorem cleanChars_dirPart (r : Bool) (l : List (List Char)) (h : NormalForm r l.reverse) :
    cleanChars (dirPart r l) = render r l := by
  unfold dirPart
  by_cases hl : l = []
  · subst hl
    cases r with
    | true => decide
    | false => decide
  · rw [if_neg hl, cleanChars_trailing _ (render_ne_nil r l hl h), cleanChars_render r l h]

/-! ## The loop of `filepath.Clean` computes the cleaned elements -/

theorem isPathSeparator_sep : IsPathSeparator Separator = true := by
  simp [IsPathSeparator]

theorem bufOf_cons (r : Bool) (e : List Char) (st : List (List Char)) :
    bufOf r (e :: st) =
      e.reverse ++ (if st = [] then bufOf r [] else Separator :: bufOf r st) := by
  by_cases hst : st = []
  · subst hst
    simp [bufOf, joinSep]
  · have hrev : st.reverse ≠ [] := by simpa using hst
    simp [bufOf, hst, joinSep_snoc st.reverse e hrev]

theorem bufOf_suffix_length (r : Bool) (a b : List (List Char)) :
    (bufOf r b).length ≤ (bufOf r (a ++ b)).length := by
  induction a with
  | nil => simp
  | cons x a ih =>
    rw [List.cons_append, bufOf_cons]
    by_cases h : a ++ b = []
    · have hb : b = [] := (List.append_eq_nil.1 h).2
      subst hb
      simp [h]
    · simp only [h, if_false, List.length_append, List.length_reverse, List.length_cons]
      omega

theorem dotdotOf_cons_ne (r : Bool) (e : List Char) (st : List (List Char)) (h : e ≠ dotdot) :
    dotdotOf r (e :: st) = dotdotOf r st := by
  simp [dotdotOf, List.dropWhile, h]

theorem dotdotOf_cons_dotdot (r : Bool) (st : List (List Char)) :
    dotdotOf r (dotdot :: st) = (bufOf r (dotdot :: st)).length := by
  simp [dotdotOf, List.dropWhile]

theorem dotdotOf_nil (r : Bool) : dotdotOf r [] = (bufOf r []).length := by
  simp [dotdotOf]

theorem dotdotOf_le (r : Bool) (st : List (List Char)) :
    dotdotOf r st ≤ (bufOf r st).length := by
  have h := bufOf_suffix_length r (st.takeWhile (fun e => decide (e ≠ dotdot)))
    (st.dropWhile (fun e => decide (e ≠ dotdot)))
  rw [List.takeWhile_append_dropWhile] at h
  exact h

theorem popElem_stop (dd : Nat) (w X : List Char) (hw : w ≠ [])
    (hns : ∀ c ∈ w, IsPathSeparator c = false) (hdd : dd = X.length) :
    popElem dd (w ++ X) = X := by
  induction w with
  | nil => exact absurd rfl hw
  | cons c w ih =>
    cases w with
    | nil => simp [popElem, hdd]
    | cons c2 w =>
      have h1 : dd < (c2 :: w ++ X).length := by simp [hdd]; omega
      have h2 : IsPathSeparator c = false := hns c (by simp)
      simp only [List.cons_append, popElem] at ih ⊢
      rw [if_pos ⟨by simpa using h1, h2⟩]
      exact ih (by simp) (fun d hd => hns d (List.mem_cons_of_mem _ hd))

theorem popElem_sep (dd : Nat) (w Y : List Char) (hw : w ≠ [])
    (hns : ∀ c ∈ w, IsPathSeparator c = false) (hdd : dd ≤ Y.length) :
    popElem dd (w ++ Separator :: Y) = Y := by
  induction w with
  | nil => exact absurd rfl hw
  | cons c w ih =>
    have h2 : IsPathSeparator c = false := hns c (by simp)
    cases w with
    | nil =>
      simp only [List.cons_append, List.nil_append, popElem]
      rw [if_pos ⟨by simp; omega, h2⟩, if_neg (by simp [isPathSeparator_sep])]
    | cons c2 w =>
      simp only [List.cons_append, popElem] at ih ⊢
      rw [if_pos ⟨by simp; omega, h2⟩]
      exact ih (by simp) (fun d hd => hns d (List.mem_cons_of_mem _ hd))

theorem bufOf_nil_length (r : Bool) : (bufOf r []).length = if r then 1 else 0 := by
  cases r <;> simp [bufOf, joinSep]

theorem bufOf_cons_length (r : Bool) (e : List Char) (st : List (List Char)) (he : e ≠ []) :
    (bufOf r st).length < (bufOf r (e :: st)).length := by
  rw [bufOf_cons]
  have : 0 < e.length := List.length_pos.2 he
  by_cases h : st = []
  · subst h
    simp
    omega
  · simp [h]
    omega

theorem takeWhile_notSep_nil (l : List Char) :
    l.takeWhile notSep = [] ↔ atEnd l = true := by
  cases l with
  | nil => simp [atEnd]
  | cons c l =>
    cases hc : IsPathSeparator c <;> simp [List.takeWhile, notSep, atEnd, hc]

theorem dropWhile_notSep_of_atEnd (l : List Char) (h : atEnd l = true) :
    l.dropWhile notSep = l := by
  cases l with
  | nil => rfl
  | cons c l =>
    simp only [atEnd] at h
    simp [List.dropWhile, notSep, h]

theorem takeWhile_notSep_mem (l : List Char) :
    ∀ c ∈ l.takeWhile notSep, IsPathSeparator c = false := by
  intro c hc
  have := List.mem_takeWhile_imp hc
  simpa [notSep] using this

theorem dropWhile_notSep_shape (l : List Char) :
    l.dropWhile notSep = [] ∨ ∃ p, l.dropWhile notSep = Separator :: p := by
  cases h : l.dropWhile notSep with
  | nil => exact Or.inl rfl
  | cons c p =>
    right
    have hne : l.dropWhile notSep ≠ [] := by simp [h]
    have := List.head_dropWhile_not notSep l hne
    simp only [h, List.head_cons, notSep, Bool.not_eq_false', Bool.not_not] at this
    have hc : c = Separator := (isPathSeparator_iff c).1 (by simpa using this)
    exact ⟨p, by rw [hc]⟩

theorem takeWhile_notSep_dot (l : List Char) (h : l.takeWhile notSep = ['.']) :
    l.head? = some '.' ∧ atEnd l.tail = true := by
  cases l with
  | nil => simp at h
  | cons d l2 =>
    cases hd : IsPathSeparator d with
    | true => simp [List.takeWhile, notSep, hd] at h
    | false =>
      simp only [List.takeWhile, notSep, hd, Bool.not_false, List.cons.injEq] at h
      exact ⟨by simp [h.1], by simpa using (takeWhile_notSep_nil l2).1 h.2⟩

theorem bufOf_length_cond (r : Bool) (st : List (List Char)) (hnf : NormalForm r st) :
    ((r = true ∧ (bufOf r st).length ≠ 1) ∨ (r = false ∧ (bufOf r st).length ≠ 0)) ↔
      st ≠ [] := by
  cases st with
  | nil => cases r <;> simp [bufOf, joinSep]
  | cons e st =>
    have he : e ≠ [] := hnf.1.1
    have h1 := bufOf_cons_length r e st he
    have h2 := bufOf_suffix_length r st []
    simp only [List.append_nil] at h2
    have h3 := bufOf_nil_length r
    constructor
    · intro _
      simp
    · intro _
      cases r with
      | true =>
        simp only [if_true] at h3
        exact Or.inl ⟨rfl, by omega⟩
      | false => exact Or.inr ⟨rfl, by omega⟩

/-- One iteration of the loop on a path element: the bytes written and the
index `dotdot` follow the elements written. -/
theorem cleanLoop_step (r : Bool) (fuel : Nat) (c : Char) (rest : List Char)
    (st : List (List Char)) (hnf : NormalForm r st) (hc : IsPathSeparator c = false) :
    cleanLoop r (fuel + 1) (c :: rest) (bufOf r st) (dotdotOf r st) =
      cleanLoop r fuel ((c :: rest).dropWhile notSep)
        (bufOf r (cleanStep r st ((c :: rest).takeWhile notSep)))
        (dotdotOf r (cleanStep r st ((c :: rest).takeWhile notSep))) := by
  have htw : (c :: rest).takeWhile notSep = c :: rest.takeWhile notSep := by
    simp [List.takeWhile, notSep, hc]
  have hdw : (c :: rest).dropWhile notSep = rest.dropWhile notSep := by
    simp [List.dropWhile, notSep, hc]
  rw [cleanLoop]
  rw [if_neg (by simp [hc])]
  by_cases h2 : c = '.' ∧ atEnd rest = true
  · rw [if_pos h2, hdw, htw, (takeWhile_notSep_nil rest).2 h2.2,
      dropWhile_notSep_of_atEnd rest h2.2, h2.1]
    simp [cleanStep]
  · rw [if_neg h2]
    by_cases h3 : c = '.' ∧ rest.head? = some '.' ∧ atEnd rest.tail = true
    · rw [if_pos h3]
      obtain ⟨hc1, hh, he⟩ := h3
      cases rest with
      | nil => simp at hh
      | cons d rest2 =>
        simp only [List.head?_cons, Option.some.injEq] at hh
        subst hh
        subst hc1
        simp only [List.tail_cons] at he ⊢
        have hdot : IsPathSeparator '.' = false := hc
        have hE : ('.' :: '.' :: rest2).takeWhile notSep = dotdot := by
          simp [List.takeWhile, notSep, hdot, (takeWhile_notSep_nil rest2).2 he, dotdot]
        have hD : ('.' :: '.' :: rest2).dropWhile notSep = rest2 := by
          simp [List.dropWhile, notSep, hdot, dropWhile_notSep_of_atEnd rest2 he]
        rw [hE, hD]
        cases st with
        | nil =>
          rw [if_neg (by rw [dotdotOf_nil]; omega)]
          cases r with
          | true => simp [cleanStep, dotdot]
          | false =>
            simp [cleanStep, dotdot, bufOf, joinSep, dotdotOf, List.dropWhile]
        | cons top st2 =>
          by_cases ht : top = dotdot
          · subst ht
            rw [if_neg (by rw [dotdotOf_cons_dotdot]; omega)]
            cases r with
            | true => simp [cleanStep, dotdot]
            | false =>
              have hpos : 0 < (bufOf false (dotdot :: st2)).length := by
                have := bufOf_cons_length false dotdot st2 (by simp [dotdot])
                omega
              have hstep : cleanStep false (dotdot :: st2) dotdot = dotdot :: dotdot :: st2 := by
                simp [cleanStep, dotdot]
              rw [hstep, dotdotOf_cons_dotdot false st2, if_pos rfl, if_pos hpos,
                dotdotOf_cons_dotdot false (dotdot :: st2)]
              have hb : bufOf false (dotdot :: dotdot :: st2) =
                  '.' :: '.' :: Separator :: bufOf false (dotdot :: st2) := by
                rw [bufOf_cons]
                simp [dotdot]
              rw [hb]
          · have hok : ElemOK top := hnf.1
            have hnf2 : NormalForm r st2 := hnf.2.2
            have hstep : cleanStep r (top :: st2) dotdot = st2 := by
              simp [cleanStep, dotdot, ht]
              intro h
              exact absurd h (by simpa [dotdot] using ht)
            have hlt : dotdotOf r (top :: st2) < (bufOf r (top :: st2)).length := by
              rw [dotdotOf_cons_ne r top st2 ht]
              have := dotdotOf_le r st2
              have := bufOf_cons_length r top st2 hok.1
              omega
            have hns : ∀ c ∈ top.reverse, IsPathSeparator c = false := by
              intro c hcm
              cases hs : IsPathSeparator c with
              | false => rfl
              | true =>
                have : c = Separator := (isPathSeparator_iff c).1 hs
                subst this
                exact absurd (List.mem_reverse.1 hcm) hok.2.2
            have hpop : popElem (dotdotOf r (top :: st2)) (bufOf r (top :: st2)) = bufOf r st2 := by
              rw [dotdotOf_cons_ne r top st2 ht, bufOf_cons]
              by_cases hst2 : st2 = []
              · subst hst2
                simp only [if_true]
                exact popElem_stop _ _ _ (by simpa using hok.1) hns (dotdotOf_nil r)
              · simp only [hst2, if_false]
                exact popElem_sep _ _ _ (by simpa using hok.1) hns (dotdotOf_le r st2)
            rw [if_pos hlt, hpop, hstep, dotdotOf_cons_ne r top st2 ht]
    · rw [if_neg h3, htw, hdw]
      have hne1 : c :: rest.takeWhile notSep ≠ ['.'] := by
        intro h
        simp only [List.cons.injEq] at h
        exact h2 ⟨h.1, (takeWhile_notSep_nil rest).1 h.2⟩
      have hne2 : c :: rest.takeWhile notSep ≠ dotdot := by
        intro h
        simp only [dotdot, List.cons.injEq] at h
        have := takeWhile_notSep_dot rest h.2
        exact h3 ⟨h.1, this.1, this.2⟩
      have hstep : cleanStep r st (c :: rest.takeWhile notSep) =
          (c :: rest.takeWhile notSep) :: st := by
        unfold cleanStep
        rw [if_neg (by simp), if_neg hne1, if_neg hne2]
      rw [hstep, dotdotOf_cons_ne r _ st hne2, bufOf_cons]
      by_cases hst : st = []
      · subst hst
        have hcond := (bufOf_length_cond r [] trivial).not.2 (by simp)
        rw [if_neg hcond]
        simp
      · have hcond := (bufOf_length_cond r st hnf).2 hst
        rw [if_pos hcond]
        simp [hst]

theorem foldl_splitSep_tail (r : Bool) (st : List (List Char)) (tl : List Char)
    (e : List Char) (he : ∀ c ∈ e, IsPathSeparator c = false)
    (htl : tl = [] ∨ ∃ p, tl = Separator :: p) :
    (splitSep (e ++ tl)).foldl (cleanStep r) st =
      (splitSep tl).foldl (cleanStep r) (cleanStep r st e) := by
  have hplain : Separator ∉ e := by
    intro h
    have := he Separator h
    rw [isPathSeparator_sep] at this
    cases this
  rcases htl with rfl | ⟨p, rfl⟩
  · simp [splitSep_plain e hplain, splitSep, cleanStep]
  · rw [splitSep_append, splitSep_plain e hplain]
    simp [splitSep, isPathSeparator_sep, cleanStep]

/-- The loop of `filepath.Clean` writes the bytes of the cleaned elements. -/
theorem cleanLoop_eq (r : Bool) (fuel : Nat) (p : List Char) (st : List (List Char))
    (hnf : NormalForm r st) (hfuel : p.length < fuel) :
    cleanLoop r fuel p (bufOf r st) (dotdotOf r st) =
      bufOf r ((splitSep p).foldl (cleanStep r) st) := by
  induction fuel generalizing p st with
  | zero => omega
  | succ fuel ih =>
    cases p with
    | nil => simp [cleanLoop, splitSep, cleanStep]
    | cons c rest =>
      cases hc : IsPathSeparator c with
      | true =>
        rw [cleanLoop, if_pos hc, ih rest st hnf (by simp at hfuel; omega)]
        simp [splitSep, hc, cleanStep]
      | false =>
        rw [cleanLoop_step r fuel c rest st hnf hc]
        have hmem := takeWhile_notSep_mem (c :: rest)
        have hplain : Separator ∉ (c :: rest).takeWhile notSep := by
          intro h
          have := hmem Separator h
          rw [isPathSeparator_sep] at this
          cases this
        have hlen : ((c :: rest).dropWhile notSep).length < fuel := by
          have h1 : (c :: rest).dropWhile notSep = rest.dropWhile notSep := by
            simp [List.dropWhile, notSep, hc]
          have h2 := (List.dropWhile_sublist (l := rest) notSep).length_le
          rw [h1]
          simp at hfuel
          omega
        rw [ih _ _ (cleanStep_normal r st _ hnf hplain) hlen]
        have hsplit := foldl_splitSep_tail r st ((c :: rest).dropWhile notSep)
          ((c :: rest).takeWhile notSep) hmem (dropWhile_notSep_shape (c :: rest))
        rw [List.takeWhile_append_dropWhile] at hsplit
        rw [hsplit]

theorem joinSep_eq_nil (l : List (List Char)) (h : ∀ x ∈ l, x ≠ []) :
    joinSep l = [] ↔ l = [] := by
  cases l with
  | nil => simp [joinSep]
  | cons x rest =>
    obtain ⟨tail, ht⟩ := joinSep_cons x rest
    have hx := h x (by simp)
    simp only [ht, List.append_eq_nil, reduceCtorEq, iff_false, not_and]
    intro h0
    exact absurd h0 hx

/-- The loop of `filepath.Clean` on bytes and its description on path elements
give the same path. -/
theorem cleanBytes_eq (p : List Char) : cleanBytes p = cleanChars p := by
  unfold cleanBytes
  by_cases hp : p = []
  · subst hp
    decide
  · rw [if_neg hp]
    cases p with
    | nil => exact absurd rfl hp
    | cons c rest =>
      have hnf := cleanElems_normal (c :: rest)
      cases hc : IsPathSeparator c with
      | true =>
        have hr : rooted (c :: rest) = true := by simp [rooted, hc]
        have h0 : cleanLoop true ((c :: rest).length + 1) (c :: rest).tail [Separator] 1 =
            bufOf true ((splitSep (c :: rest)).foldl (cleanStep true) []) := by
          have := cleanLoop_eq true ((c :: rest).length + 1) rest [] trivial
            (by simp only [List.length_cons]; omega)
          simp only [bufOf, dotdotOf, List.dropWhile, List.reverse_nil, joinSep,
            List.nil_append, if_true, List.length_singleton] at this
          rw [List.tail_cons, this]
          simp [splitSep, hc, cleanStep, bufOf]
        simp only [hr, if_true, h0]
        simp [bufOf, cleanChars, cleanElems, render, hr]
      | false =>
        have hr : rooted (c :: rest) = false := by simp [rooted, hc]
        have h0 : cleanLoop false ((c :: rest).length + 1) (c :: rest) [] 0 =
            bufOf false ((splitSep (c :: rest)).foldl (cleanStep false) []) := by
          have := cleanLoop_eq false ((c :: rest).length + 1) (c :: rest) [] trivial (by simp)
          simpa [bufOf, dotdotOf, List.dropWhile, joinSep] using this
        rw [hr] at hnf
        have hne : ∀ x ∈ cleanElems (c :: rest), x ≠ [] := fun x hx =>
          (NormalForm_mem false _ hnf x (by simpa using hx)).1
        have hnil := joinSep_eq_nil (cleanElems (c :: rest)) hne
        simp only [hr, Bool.false_eq_true, if_false, h0]
        simp only [cleanElems, hr] at hnil
        by_cases hl : (List.foldl (cleanStep false) [] (splitSep (c :: rest))).reverse = []
        · have hl2 : List.foldl (cleanStep false) [] (splitSep (c :: rest)) = [] := by
            simpa using hl
          simp [bufOf, cleanChars, cleanElems, render, hr, hl2, joinSep]
        · have hj := (not_congr hnil).2 hl
          simp [bufOf, cleanChars, cleanElems, render, hr, hl, hj]

/-- The function `filepath.Clean` in terms of path elements. -/
theorem Clean_eq (path : String) : Clean path = ⟨cleanChars path.data⟩ := by
  simp [Clean, cleanBytes_eq]

/-! ## Lemmas on `filepath.Join` -/

theorem string_ne_empty (s : String) : s ≠ "" ↔ s.data ≠ [] := by
  constructor
  · intro h hd
    apply h
    cases s
    simp at hd
    simp [hd]
  · intro h hs
    apply h
    rw [hs]

/-- The path `filepath.Join(p, name)` for a plain name: the cleaned elements of
`p`, then `name`. -/
theorem Join_plain (p name : String) (hn : PlainName name) :
    (Join [p, name]).data = render (rooted p.data) (cleanElems p.data ++ [name.data]) := by
  by_cases hp : p = ""
  · subst hp
    have hne : name ≠ "" := (string_ne_empty name).2 hn.1
    obtain ⟨h1, h2⟩ := cleanElems_single name.data hn
    have e1 : rooted ("" : String).data = false := rfl
    have e2 : cleanElems ("" : String).data = [] := by decide
    rw [e1, e2]
    simp [Join, hne, Clean_eq, cleanChars, joinSep, h1, h2]
  · have hpd : p.data ≠ [] := (string_ne_empty p).1 hp
    obtain ⟨h1, h2⟩ := cleanElems_snoc p.data name.data hpd hn
    simp [Join, hp, Clean_eq, cleanChars, joinSep, h1, h2]

theorem normal_snoc (p : List Char) (n : List Char)
    (hn : n ≠ [] ∧ n ≠ ['.'] ∧ n ≠ dotdot ∧ Separator ∉ n) :
    NormalForm (rooted p) (cleanElems p ++ [n]).reverse := by
  simp only [List.reverse_append, List.reverse_cons, List.reverse_nil, List.nil_append,
    List.singleton_append]
  exact ⟨⟨hn.1, hn.2.1, hn.2.2.2⟩, fun h => absurd h hn.2.2.1, cleanElems_normal p⟩

/-- Joining a plain name to a path adds one element to its cleaned form. -/
theorem cleanElems_Join (p name : String) (hn : PlainName name) :
    cleanElems (Join [p, name]).data = cleanElems p.data ++ [name.data] := by
  rw [Join_plain p name hn]
  exact cleanElems_render _ _ (normal_snoc p.data name.data hn)

/-- A plain name joined to a directory part is found back by `filepath.Split`,
and the directory part found denotes the directory it was joined to. -/
theorem Split_Join_plain (dir name : String) (hn : PlainName name) :
    (Split (Join [dir, name])).2 = name ∧
      Clean (Split (Join [dir, name])).1 = Clean dir := by
  have hj := Join_plain dir name hn
  rw [render_snoc] at hj
  have hs : Split (Join [dir, name]) =
      (⟨dirPart (rooted dir.data) (cleanElems dir.data)⟩, ⟨name.data⟩) := by
    have : Join [dir, name] =
        ⟨dirPart (rooted dir.data) (cleanElems dir.data) ++ name.data⟩ := by
      apply String.ext
      simpa using hj
    rw [this]
    exact Split_append _ _ (dirPart_shape _ _) hn.2.2.2
  rw [hs]
  refine ⟨rfl, ?_⟩
  rw [Clean_eq, Clean_eq]
  rw [cleanChars_dirPart _ _ (cleanElems_normal dir.data)]
  rfl

/-! ## Paths under a path -/

theorem CleanPath_clean (r : Bool) (q : String) (h : CleanPath r q) : Clean q = q := by
  obtain ⟨l, _, hnf, hq⟩ := h
  rw [Clean_eq]
  apply String.ext
  simp only []
  rw [hq, cleanChars_render r l hnf]

/-- A plain name joined to a cleaned path with at least one element is written
after the path and a separator. -/
theorem Join_cleanPath (r : Bool) (q name : String) (h : CleanPath r q)
    (hn : PlainName name) :
    (Join [q, name]).data = q.data ++ Separator :: name.data ∧
      CleanPath r (Join [q, name]) := by
  obtain ⟨l, hl, hnf, hq⟩ := h
  have hj := Join_plain q name hn
  rw [hq, rooted_render r l hnf, cleanElems_render r l hnf] at hj
  have hnf2 : NormalForm r (l ++ [name.data]).reverse := by
    simp only [List.reverse_append, List.reverse_cons, List.reverse_nil, List.nil_append,
      List.singleton_append]
    exact ⟨⟨hn.1, hn.2.1, hn.2.2.2⟩, fun h => absurd h hn.2.2.1, hnf⟩
  refine ⟨?_, l ++ [name.data], by simp, hnf2, hj⟩
  rw [hj, render_snoc, hq]
  simp [dirPart, hl]

/-- A plain name joined to any path gives a cleaned path with at least one
element. -/
theorem Join_first_cleanPath (path name : String) (hn : PlainName name) :
    CleanPath (rooted path.data) (Join [path, name]) :=
  ⟨cleanElems path.data ++ [name.data], by simp, normal_snoc path.data name.data hn,
    Join_plain path name hn⟩

/-- When the snapshots name their entries by plain names, a path reached from a
cleaned path through them is a cleaned path that is this path or starts with it
and a separator. -/
theorem Below_under (log : List Event) (r : Bool) (p q : String)
    (hplain : ∀ q2 fl f, Event.list q2 fl ∈ log → f ∈ fl → f.Name ≠ "." → f.Name ≠ ".." →
      PlainName f.Name)
    (hp : CleanPath r p) (h : Below log p q) :
    CleanPath r q ∧ (q = p ∨ ∃ rest, q.data = p.data ++ Separator :: rest) := by
  induction h with
  | base => exact ⟨hp, Or.inl rfl⟩
  | step q2 fl f _ hl hf h1 h2 ih =>
    obtain ⟨hc, hu⟩ := ih
    obtain ⟨hd, hc2⟩ := Join_cleanPath r q2 f.Name hc (hplain q2 fl f hl hf h1 h2)
    refine ⟨hc2, Or.inr ?_⟩
    rcases hu with rfl | ⟨rest, hrest⟩
    · exact ⟨f.Name.data, hd⟩
    · exact ⟨rest ++ Separator :: f.Name.data, by rw [hd, hrest]; simp⟩

/-- A path under `p` starts with `p`. -/
theorem Under_starts (p q : String) (h : Under p q) : p.data <+: q.data := by
  rcases h.2 with rfl | ⟨rest, hrest⟩
  · exact List.prefix_refl _
  · exact ⟨Separator :: rest, hrest.symm⟩

/-- The path `a/b` is under `a`; an unrelated path is not, and neither is a
path that leaves `a` again with `..`. -/
theorem Under_examples :
    Under "a" "a/b" ∧ ¬Under "a" "zzz/unrelated" ∧ ¬Under "/srv/data" "/etc/passwd" ∧
      ¬Under "a" "a/../b" := by
  refine ⟨⟨by decide, Or.inr ⟨"b".data, by decide⟩⟩, ?_, ?_, ?_⟩
  · rintro ⟨_, h | ⟨rest, h⟩⟩
    · exact absurd h (by decide)
    · simp at h
  · rintro ⟨_, h | ⟨rest, h⟩⟩
    · exact absurd h (by decide)
    · simp at h
  · rintro ⟨h, _⟩
    exact absurd h (by decide)

/-- In a system whose listings name their entries by plain names, every event
of the walk of a subdirectory entry is about the path of the subdirectory or a
path under it. -/
theorem BatchRename_under {σ : Type} (os : OS σ) (hplain : PlainListing os) (re : Regexp)
    (repl : String) (recursive D : Bool) (fuel : Nat) (fs : σ) (path name : String)
    (hn : PlainName name) (out : Out σ)
    (h : BatchRename os fuel fs (Join [path, name]) re repl recursive D = some out) :
    ∀ ev ∈ out.log, ∀ q, ev.subject = some q → Under (Join [path, name]) q := by
  intro ev hev q hq
  have hb := BatchRename_below os re repl recursive D fuel fs _ out h ev hev q hq
  have hl := BatchRename_listed os re repl recursive D fuel fs _ out h
  obtain ⟨hc, hu⟩ := Below_under out.log (rooted path.data) _ q
    (fun q2 fl f hq2 hf h1 h2 => by
      obtain ⟨s, hs⟩ := hl q2 fl hq2
      exact hplain s q2 fl f hs hf h1 h2)
    (Join_first_cleanPath path name hn) hb
  exact ⟨CleanPath_clean _ q hc, hu⟩

/-! ## The concrete operating system has bounded nesting -/

theorem mem_insertEntry (f x : FileInfo) (l : List FileInfo) :
    x ∈ insertEntry f l ↔ x = f ∨ x ∈ l := by
  induction l with
  | nil => simp [insertEntry]
  | cons g rest ih =>
    simp only [insertEntry]
    split
    · simp
    · simp only [List.mem_cons, ih]
      tauto

theorem mem_sortEntries (x : FileInfo) (l : List FileInfo) : x ∈ sortEntries l ↔ x ∈ l := by
  induction l with
  | nil => simp [sortEntries]
  | cons g rest ih => simp [sortEntries, mem_insertEntry, ih]

theorem children_plain (fs : FS) (key : List String) (f : FileInfo)
    (h : f ∈ children fs key) : PlainName f.Name := by
  simp only [children, List.mem_filterMap] at h
  obtain ⟨e, _, he⟩ := h
  cases hl : e.1.getLast? with
  | none => simp [hl] at he
  | some name =>
    simp only [hl] at he
    by_cases hc : e.1.dropLast = key ∧ validName name = true
    · rw [if_pos hc] at he
      cases he
      have := hc.2
      simp only [validName, decide_eq_true_eq] at this
      exact this
    · rw [if_neg hc] at he
      cases he

theorem readDir_ok (fs : FS) (p : String) (files : List FileInfo)
    (h : readDir fs p = .ok files) :
    p.length ≤ PathMax ∧ ∃ key, files = sortEntries (children fs key) := by
  unfold readDir at h
  cases hr : resolve fs p with
  | error e => simp [hr] at h
  | ok key =>
    have hlen : p.length ≤ PathMax := by
      by_contra hc
      have : PathMax < p.length := by omega
      simp [resolve, this] at hr
    refine ⟨hlen, key, ?_⟩
    simp only [hr] at h
    cases hl : lookup fs key with
    | none => simp [hl] at h
    | some i =>
      simp only [hl] at h
      by_cases h1 : i.kind = Kind.file
      · simp [h1] at h
      · by_cases h2 : i.readable = true
        · simp only [h1, h2, if_false, if_true] at h
          cases h
          rfl
        · simp [h1, h2] at h

/-- Joining a plain name to a path that fits in `PATH_MAX` leaves less room. -/
theorem unixRank_Join (p name : String) (hn : PlainName name) (hp : p.length ≤ PathMax) :
    unixRank (Join [p, name]) < unixRank p := by
  unfold unixRank
  rw [cleanElems_Join p name hn]
  have h1 := cleanElems_length p.data
  have h2 : p.data.length = p.length := rfl
  simp only [List.length_append, List.length_singleton]
  omega

/-- On the concrete operating system the nesting of directories is bounded. -/
theorem unixOS_descends : Descends unixOS unixRank := by
  intro s p files f hd hf _ _ _
  obtain ⟨hlen, key, hfiles⟩ := readDir_ok s p files hd
  subst hfiles
  exact unixRank_Join p f.Name
    (children_plain s key f ((mem_sortEntries f _).1 hf)) hlen

set_option maxRecDepth 100000

/-- The listings of the concrete operating system name their entries by plain
names. -/
theorem unixOS_plainListing : PlainListing unixOS := by
  intro s p files f hd hf _ _
  obtain ⟨_, key, hfiles⟩ := readDir_ok s p files hd
  subst hfiles
  exact children_plain s key f ((mem_sortEntries f _).1 hf)

/-! ## The properties of the specification -/

/-- C1: when the base name of the path (what `filepath.Split` leaves after the
last separator, see `Split_spec`) does not match the pattern, or matches and is left unchanged by
the substitution, `Rename` makes no call of `os.Rename`, leaves the file system
as it is and returns the count 0 and a nil error. -/
theorem C1_Rename_noop {σ : Type} (os : OS σ) (fs : σ) (path : String) (re : Regexp)
    (repl : String)
    (h : re.Match (Split path).2 = false ∨
      (re.Match (Split path).2 = true ∧
        re.ReplaceAllString (Split path).2 repl = (Split path).2)) :
    Rename os fs path re repl = ⟨fs, [], 0, none⟩ := by
  rcases h with h | ⟨_, h⟩
  · exact Rename_nomatch os fs path re repl h
  · exact Rename_same os fs path re repl h

/-- Witness of C1: `other` does not match `foo(\d)`, and `^(.*)$` with the
replacement `$1` matches `foo1.txt` and gives it back. -/
theorem C1_Rename_noop_witness :
    (fooDigit.Match (Split "d/other").2 = false ∧
      Rename unixOS fooTree "d/other" fooDigit "bar$1" = ⟨fooTree, [], 0, none⟩) ∧
    ((wholeName.Match (Split "d/foo1.txt").2 = true ∧
        wholeName.ReplaceAllString (Split "d/foo1.txt").2 "$1" = (Split "d/foo1.txt").2) ∧
      Rename unixOS fooTree "d/foo1.txt" wholeName "$1" = ⟨fooTree, [], 0, none⟩) :=
  ⟨⟨by decide, C1_Rename_noop unixOS fooTree "d/other" fooDigit "bar$1" (Or.inl (by decide))⟩,
    ⟨by decide,
      C1_Rename_noop unixOS fooTree "d/foo1.txt" wholeName "$1" (Or.inr (by decide))⟩⟩

/-- C2: for a directory whose listing succeeds, given more fuel than the rank of
the path in a system of bounded nesting, `BatchRename` returns a nil error and a
count equal to the number of calls of `os.Rename` that succeeded during the
walk; every entry of the snapshot is processed, whatever failed before it; and a
walk that returns an error has made no successful rename. -/
theorem C2_BatchRename_count {σ : Type} (os : OS σ) (rank : String → Nat)
    (hdesc : Descends os rank) (fs : σ) (path : String) (re : Regexp) (repl : String)
    (recursive D : Bool) (e0 : OSError) (files : List FileInfo)
    (hf : os.ReadFile fs path = .error e0) (hd : os.ReadDir fs path = .ok files)
    (fuel : Nat) (hfuel : rank path < fuel) :
    ∃ out, BatchRename os fuel fs path re repl recursive D = some out ∧
      out.err = none ∧ out.n = renamed out.log ∧
      (∀ f ∈ files, f.Name ≠ "." → f.Name ≠ ".." → Processed recursive D path f out.log) ∧
      (∀ fuel2 fs2 path2 r, BatchRename os fuel2 fs2 path2 re repl recursive D = some r →
        r.err ≠ none → r.n = 0 ∧ renamed r.log = 0) := by
  obtain ⟨out, hout⟩ := BatchRename_total os rank hdesc re repl recursive D fuel fs path hfuel
  refine ⟨out, hout, ?_, (BatchRename_count os re repl recursive D fuel fs path out hout).1,
    ?_, ?_⟩
  · cases fuel with
    | zero => simp [BatchRename] at hout
    | succ fuel =>
      rw [BatchRename_dir os fuel fs path re repl recursive D e0 files hf hd] at hout
      cases hw : walkEntries os
          (fun fs2 path2 => BatchRename os fuel fs2 path2 re repl recursive D)
          path re repl recursive D files ⟨fs, [Event.walk path, Event.list path files], 0⟩ with
      | none => simp [hw] at hout
      | some a =>
        simp only [hw, Option.map_some', Option.some.injEq] at hout
        rw [← hout]
  · obtain ⟨_, hc, hl⟩ := BatchRename_closed os re repl recursive D fuel fs path out hout
    intro f hfm h1 h2
    exact hc path files (hl e0 files hf hd) f hfm h1 h2
  · intro fuel2 fs2 path2 r hr herr
    obtain ⟨h1, h2⟩ := BatchRename_count os re repl recursive D fuel2 fs2 path2 r hr
    exact ⟨h2 herr, by rw [← h1]; exact h2 herr⟩

/-- Witness of C2: the files `foo1.txt` and `foo2.txt` with the substitution
`foo(\d)` to `bar$1` give the count 2. -/
theorem C2_BatchRename_count_witness :
    Descends unixOS unixRank ∧
    unixOS.ReadFile fooTree "d" = .error OSError.EISDIR ∧
    unixOS.ReadDir fooTree "d" =
      .ok [⟨"foo1.txt", false⟩, ⟨"foo2.txt", false⟩, ⟨"other", false⟩] ∧
    unixRank "d" < 4098 ∧
    BatchRename unixOS 4098 fooTree "d" fooDigit "bar$1" true true =
      some ⟨barTree,
        [Event.walk "d",
          Event.list "d" [⟨"foo1.txt", false⟩, ⟨"foo2.txt", false⟩, ⟨"other", false⟩],
          Event.call Site.fileEntry "d/foo1.txt", Event.osRename "d/foo1.txt" "d/bar1.txt" none,
          Event.call Site.fileEntry "d/foo2.txt", Event.osRename "d/foo2.txt" "d/bar2.txt" none,
          Event.call Site.fileEntry "d/other"], 2, none⟩ ∧
    ∃ out, BatchRename unixOS 4098 fooTree "d" fooDigit "bar$1" true true = some out ∧
      out.err = none ∧ out.n = renamed out.log ∧
      (∀ f ∈ [(⟨"foo1.txt", false⟩ : FileInfo), ⟨"foo2.txt", false⟩, ⟨"other", false⟩],
        f.Name ≠ "." → f.Name ≠ ".." → Processed true true "d" f out.log) ∧
      (∀ fuel2 fs2 path2 r, BatchRename unixOS fuel2 fs2 path2 fooDigit "bar$1" true true = some r →
        r.err ≠ none → r.n = 0 ∧ renamed r.log = 0) :=
  ⟨unixOS_descends, by decide, by decide, by decide, by decide,
    C2_BatchRename_count unixOS unixRank unixOS_descends fooTree "d" fooDigit "bar$1" true true
      OSError.EISDIR _ (by decide) (by decide) 4098 (by decide)⟩

/-- The walk of `a/b/c.txt` from the parent of `a`, for a substitution that maps
`a` to `x` and `b` to `y` and leaves `c.txt` alone. -/
theorem walk_treeABC (re : Regexp) (repl : String)
    (ha : re.Match "a" = true ∧ re.ReplaceAllString "a" repl = "x")
    (hb : re.Match "b" = true ∧ re.ReplaceAllString "b" repl = "y")
    (hc : re.Match "c.txt" = false ∨ re.ReplaceAllString "c.txt" repl = "c.txt") :
    BatchRename unixOS 4 treeABC "." re repl true true =
      some ⟨treeXYC,
        [Event.walk ".", Event.list "." [⟨"a", true⟩],
          Event.walk "a", Event.list "a" [⟨"b", true⟩],
          Event.walk "a/b", Event.list "a/b" [⟨"c.txt", false⟩],
          Event.call Site.fileEntry "a/b/c.txt",
          Event.call Site.dirEntry "a/b", Event.osRename "a/b" "a/y" none,
          Event.call Site.dirEntry "a", Event.osRename "a" "x" none], 2, none⟩ := by
  have s1 : Split "a/b/c.txt" = ("a/b/", "c.txt") := by decide
  have s2 : Split "a/b" = ("a/", "b") := by decide
  have s3 : Split "a" = ("", "a") := by decide
  have r1 : Rename unixOS treeABC "a/b/c.txt" re repl = ⟨treeABC, [], 0, none⟩ := by
    rcases hc with h | h
    · exact Rename_nomatch _ _ _ _ _ (by rw [s1]; exact h)
    · exact Rename_same _ _ _ _ _ (by rw [s1]; exact h)
  have r2 : Rename unixOS treeABC "a/b" re repl =
      ⟨treeAYC, [Event.osRename "a/b" "a/y" none], 1, none⟩ := by
    have := Rename_ok unixOS treeABC treeAYC "a/b" re repl (by rw [s2]; exact hb.1)
      (by rw [s2]; simp only; rw [hb.2]; decide)
      (by rw [s2]; simp only; rw [hb.2]; decide)
    rw [this, s2]; simp only; rw [hb.2]
    decide
  have r3 : Rename unixOS treeAYC "a" re repl =
      ⟨treeXYC, [Event.osRename "a" "x" none], 1, none⟩ := by
    have := Rename_ok unixOS treeAYC treeXYC "a" re repl (by rw [s3]; exact ha.1)
      (by rw [s3]; simp only; rw [ha.2]; decide)
      (by rw [s3]; simp only; rw [ha.2]; decide)
    rw [this, s3]; simp only; rw [ha.2]
    decide
  have f0 : unixOS.ReadFile treeABC "." = .error OSError.EISDIR := by decide
  have d0 : unixOS.ReadDir treeABC "." = .ok [⟨"a", true⟩] := by decide
  have f1 : unixOS.ReadFile treeABC "a" = .error OSError.EISDIR := by decide
  have d1 : unixOS.ReadDir treeABC "a" = .ok [⟨"b", true⟩] := by decide
  have f2 : unixOS.ReadFile treeABC "a/b" = .error OSError.EISDIR := by decide
  have d2 : unixOS.ReadDir treeABC "a/b" = .ok [⟨"c.txt", false⟩] := by decide
  have j0 : Join [".", "a"] = "a" := by decide
  have j1 : Join ["a", "b"] = "a/b" := by decide
  have j2 : Join ["a/b", "c.txt"] = "a/b/c.txt" := by decide
  simp [BatchRename, walkEntries, visitEntry, renameEntry, f0, d0, f1, d1, f2, d2, j0, j1, j2,
    r1, r2, r3]

/-- The walk of a directory, cut at one subdirectory entry of its snapshot. -/
theorem walk_split {σ : Type} (os : OS σ) (fuel : Nat) (fs : σ) (path : String)
    (re : Regexp) (repl : String) (recursive D : Bool) (e0 : OSError)
    (pre post : List FileInfo) (f : FileInfo)
    (hf : os.ReadFile fs path = .error e0) (hd : os.ReadDir fs path = .ok (pre ++ f :: post))
    (out : Out σ) (h : BatchRename os (fuel + 1) fs path re repl recursive D = some out) :
    ∃ a0 a1,
      walkEntries os (fun fs2 path2 => BatchRename os fuel fs2 path2 re repl recursive D)
        path re repl recursive D pre
        ⟨fs, [Event.walk path, Event.list path (pre ++ f :: post)], 0⟩ = some a0 ∧
      Visit os (fun fs2 path2 => BatchRename os fuel fs2 path2 re repl recursive D)
        path re repl recursive D f a0 a1 ∧
      walkEntries os (fun fs2 path2 => BatchRename os fuel fs2 path2 re repl recursive D)
        path re repl recursive D post a1 = some ⟨out.fs, out.log, out.n⟩ ∧
      out.err = none := by
  rw [BatchRename_dir os fuel fs path re repl recursive D e0 _ hf hd, walkEntries_append] at h
  cases h0 : walkEntries os (fun fs2 path2 => BatchRename os fuel fs2 path2 re repl recursive D)
      path re repl recursive D pre
      ⟨fs, [Event.walk path, Event.list path (pre ++ f :: post)], 0⟩ with
  | none => simp [h0] at h
  | some a0 =>
    simp only [h0, Option.some_bind, walkEntries] at h
    cases h1 : visitEntry os (fun fs2 path2 => BatchRename os fuel fs2 path2 re repl recursive D)
        path re repl recursive D f a0 with
    | none => simp [h1] at h
    | some a1 =>
      simp only [h1] at h
      cases h2 : walkEntries os
          (fun fs2 path2 => BatchRename os fuel fs2 path2 re repl recursive D)
          path re repl recursive D post a1 with
      | none => simp [h2] at h
      | some a2 =>
        simp only [h2, Option.map_some', Option.some.injEq] at h
        subst h
        exact ⟨a0, a1, rfl, visitEntry_visit os _ path re repl recursive D f a0 a1 h1, h2, rfl⟩

/-- C3: with recursion and directory renaming enabled, in the walk of a
directory (given more fuel than its rank in a system of bounded nesting), each
subdirectory entry of the snapshot is handled as follows: from the state `a0`
left by the entries before it, the whole walk `r` of the subdirectory is made
first, on the path joined from the directory and the name in the snapshot; every
event of that walk, in particular every call of `os.Rename` with its source, is
about a path reached from this path through the snapshots of that walk, and,
when listings name their entries by plain names, about a cleaned path that is
this path or starts with it and a separator; only then, if that walk returned
no error, `Rename` is applied to the subdirectory itself, in the state left by
the walk. So the tree `a/b/c.txt`, walked from the parent of `a` with a
substitution that maps `a` to `x` and `b` to `y` and leaves `c.txt` alone, ends
as `x/y/c.txt`. -/
theorem C3_descend_before_rename :
    (∀ (σ : Type) (os : OS σ) (rank : String → Nat), Descends os rank →
      ∀ (fuel : Nat) (fs : σ) (path : String) (re : Regexp) (repl : String) (e0 : OSError)
        (pre post : List FileInfo) (f : FileInfo),
      os.ReadFile fs path = .error e0 → os.ReadDir fs path = .ok (pre ++ f :: post) →
      f.IsDir = true → f.Name ≠ "." → f.Name ≠ ".." → rank path < fuel + 1 →
      ∃ out a0 r a1,
        BatchRename os (fuel + 1) fs path re repl true true = some out ∧
        walkEntries os (fun fs2 path2 => BatchRename os fuel fs2 path2 re repl true true)
          path re repl true true pre
          ⟨fs, [Event.walk path, Event.list path (pre ++ f :: post)], 0⟩ = some a0 ∧
        BatchRename os fuel a0.fs (Join [path, f.Name]) re repl true true = some r ∧
        (∀ ev ∈ r.log, ∀ q, ev.subject = some q → Below r.log (Join [path, f.Name]) q) ∧
        (PlainListing os →
          ∀ ev ∈ r.log, ∀ q, ev.subject = some q → Under (Join [path, f.Name]) q) ∧
        (r.err = none →
          a1 = renameEntry os Site.dirEntry (Join [path, f.Name]) re repl
            ⟨r.fs, a0.log ++ r.log, a0.n + r.n⟩) ∧
        walkEntries os (fun fs2 path2 => BatchRename os fuel fs2 path2 re repl true true)
          path re repl true true post a1 = some ⟨out.fs, out.log, out.n⟩) ∧
    (∀ (re : Regexp) (repl : String),
      re.Match "a" = true ∧ re.ReplaceAllString "a" repl = "x" →
      re.Match "b" = true ∧ re.ReplaceAllString "b" repl = "y" →
      re.Match "c.txt" = false ∨ re.ReplaceAllString "c.txt" repl = "c.txt" →
      ∃ out, BatchRename unixOS 4 treeABC "." re repl true true = some out ∧
        out.fs = treeXYC ∧ out.n = 2 ∧ out.err = none ∧
        unixOS.ReadFile out.fs "x/y/c.txt" = .ok () ∧
        unixOS.ReadFile out.fs "a/b/c.txt" = .error OSError.ENOENT) := by
  constructor
  · intro σ os rank hdesc fuel fs path re repl e0 pre post f hf hd hdir h1 h2 hfuel
    obtain ⟨out, hout⟩ :=
      BatchRename_total os rank hdesc re repl true true (fuel + 1) fs path hfuel
    obtain ⟨a0, a1, hpre, hv, hpost, _⟩ :=
      walk_split os fuel fs path re repl true true e0 pre post f hf hd out hout
    have key : ∃ r, BatchRename os fuel a0.fs (Join [path, f.Name]) re repl true true = some r ∧
        (r.err = none →
          a1 = renameEntry os Site.dirEntry (Join [path, f.Name]) re repl
            ⟨r.fs, a0.log ++ r.log, a0.n + r.n⟩) := by
      cases hv with
      | dot hdot => rcases hdot with h | h <;> contradiction
      | file _ _ hnd => rw [hdir] at hnd; cases hnd
      | flatRename _ _ _ hrec _ => cases hrec
      | flatSkip _ _ _ hrec _ => cases hrec
      | subError r e _ _ _ _ hs hre => exact ⟨r, hs, fun h => by rw [hre] at h; cases h⟩
      | subRename r _ _ _ _ hs hre _ => exact ⟨r, hs, fun _ => rfl⟩
      | subOnly r _ _ _ _ hs hre hD => cases hD
    obtain ⟨r, hr, hren⟩ := key
    exact ⟨out, a0, r, a1, hout, hpre, hr,
      BatchRename_below os re repl true true fuel a0.fs _ r hr,
      fun hplain => BatchRename_under os hplain re repl true true fuel a0.fs path f.Name
        (hplain fs path _ f hd (by simp) h1 h2) r hr,
      hren, hpost⟩
  · intro re repl ha hb hc
    exact ⟨_, walk_treeABC re repl ha hb hc, rfl, rfl, rfl, by decide, by decide⟩

/-- Witness of C3: in the walk of the parent of `a` in the tree `a/b/c.txt`, the
entry `a` is walked, then renamed; the listings of the concrete operating
system name their entries by plain names. -/
theorem C3_descend_before_rename_witness :
    PlainListing unixOS ∧
    (Descends unixOS unixRank ∧
      unixOS.ReadFile treeABC "." = .error OSError.EISDIR ∧
      unixOS.ReadDir treeABC "." = .ok ([] ++ (⟨"a", true⟩ : FileInfo) :: []) ∧
      unixRank "." < 4098 + 1 ∧
      ∃ out a0 r a1,
        BatchRename unixOS (4098 + 1) treeABC "."
          (mapNames [("a", "x"), ("b", "y")]) "" true true = some out ∧
        walkEntries unixOS
          (fun fs2 path2 => BatchRename unixOS 4098 fs2 path2
            (mapNames [("a", "x"), ("b", "y")]) "" true true)
          "." (mapNames [("a", "x"), ("b", "y")]) "" true true []
          ⟨treeABC, [Event.walk ".", Event.list "." ([] ++ (⟨"a", true⟩ : FileInfo) :: [])], 0⟩
            = some a0 ∧
        BatchRename unixOS 4098 a0.fs (Join [".", "a"])
          (mapNames [("a", "x"), ("b", "y")]) "" true true = some r ∧
        (∀ ev ∈ r.log, ∀ q, ev.subject = some q → Below r.log (Join [".", "a"]) q) ∧
        (PlainListing unixOS →
          ∀ ev ∈ r.log, ∀ q, ev.subject = some q → Under (Join [".", "a"]) q) ∧
        (r.err = none →
          a1 = renameEntry unixOS Site.dirEntry (Join [".", "a"])
            (mapNames [("a", "x"), ("b", "y")]) "" ⟨r.fs, a0.log ++ r.log, a0.n + r.n⟩) ∧
        walkEntries unixOS
          (fun fs2 path2 => BatchRename unixOS 4098 fs2 path2
            (mapNames [("a", "x"), ("b", "y")]) "" true true)
          "." (mapNames [("a", "x"), ("b", "y")]) "" true true [] a1
            = some ⟨out.fs, out.log, out.n⟩) ∧
    ∃ out, BatchRename unixOS 4 treeABC "." (mapNames [("a", "x"), ("b", "y")]) "" true true
        = some out ∧
      out.fs = treeXYC ∧ out.n = 2 ∧ out.err = none ∧
      unixOS.ReadFile out.fs "x/y/c.txt" = .ok () ∧
      unixOS.ReadFile out.fs "a/b/c.txt" = .error OSError.ENOENT :=
  ⟨unixOS_plainListing,
    ⟨unixOS_descends, by decide, by decide, by decide,
      C3_descend_before_rename.1 FS unixOS unixRank unixOS_descends 4098 treeABC "."
        (mapNames [("a", "x"), ("b", "y")]) "" OSError.EISDIR [] [] ⟨"a", true⟩
        (by decide) (by decide) rfl (by decide) (by decide) (by decide)⟩,
    C3_descend_before_rename.2 (mapNames [("a", "x"), ("b", "y")]) ""
      (by decide) (by decide) (by decide)⟩

/-- C4: with directory renaming disabled (given more fuel than the rank of the
path in a system of bounded nesting), `BatchRename` never applies `Rename` from
its subdirectory branch; every call of `os.Rename` has as source a path that
was read as a file or an entry that its snapshot says is not a directory; and
with recursion enabled every subdirectory entry of every snapshot is walked and
`Rename` is applied to every entry that is not a directory. -/
theorem C4_directories_kept {σ : Type} (os : OS σ) (rank : String → Nat)
    (hdesc : Descends os rank) (fs : σ) (path : String) (re : Regexp) (repl : String)
    (recursive : Bool) (fuel : Nat) (hfuel : rank path < fuel) :
    ∃ out, BatchRename os fuel fs path re repl recursive false = some out ∧
      (∀ p, Event.call Site.dirEntry p ∉ out.log) ∧
      (∀ src dst e, Event.osRename src dst e ∈ out.log →
        Event.call Site.top src ∈ out.log ∨ Event.call Site.fileEntry src ∈ out.log) ∧
      (∀ q, Event.call Site.fileEntry q ∈ out.log →
        ∃ p fl f, Event.list p fl ∈ out.log ∧ f ∈ fl ∧ f.IsDir = false ∧
          q = Join [p, f.Name]) ∧
      (recursive = true → ∀ p fl, Event.list p fl ∈ out.log →
        ∀ f ∈ fl, f.Name ≠ "." → f.Name ≠ ".." →
          (f.IsDir = true → Event.walk (Join [p, f.Name]) ∈ out.log) ∧
          (f.IsDir = false → Event.call Site.fileEntry (Join [p, f.Name]) ∈ out.log)) := by
  obtain ⟨out, hout⟩ := BatchRename_total os rank hdesc re repl recursive false fuel fs path hfuel
  obtain ⟨h1, h2, h3⟩ := BatchRename_nodirs os re repl recursive fuel fs path out hout
  obtain ⟨_, hc, _⟩ := BatchRename_closed os re repl recursive false fuel fs path out hout
  refine ⟨out, hout, h1, h2, h3, ?_⟩
  intro hrec p fl hl f hfm g1 g2
  obtain ⟨c1, c2, _⟩ := hc p fl hl f hfm g1 g2
  exact ⟨fun hdir => c2 hdir hrec, c1⟩

/-- Witness of C4: the directory `foo1` matches `foo(\d)` and keeps its name,
while the file `foo2.txt` inside it is renamed. -/
theorem C4_directories_kept_witness :
    Descends unixOS unixRank ∧ unixRank "." < 4099 ∧
    BatchRename unixOS 4099 fooDirTree "." fooDigit "bar$1" true false =
      some ⟨[(["foo1"], directory), (["foo1", "bar2.txt"], regularFile)],
        [Event.walk ".", Event.list "." [⟨"foo1", true⟩],
          Event.walk "foo1", Event.list "foo1" [⟨"foo2.txt", false⟩],
          Event.call Site.fileEntry "foo1/foo2.txt",
          Event.osRename "foo1/foo2.txt" "foo1/bar2.txt" none], 1, none⟩ ∧
    fooDigit.Match "foo1" = true ∧ fooDigit.ReplaceAllString "foo1" "bar$1" = "bar1" ∧
    ∃ out, BatchRename unixOS 4099 fooDirTree "." fooDigit "bar$1" true false = some out ∧
      (∀ p, Event.call Site.dirEntry p ∉ out.log) ∧
      (∀ src dst e, Event.osRename src dst e ∈ out.log →
        Event.call Site.top src ∈ out.log ∨ Event.call Site.fileEntry src ∈ out.log) ∧
      (∀ q, Event.call Site.fileEntry q ∈ out.log →
        ∃ p fl f, Event.list p fl ∈ out.log ∧ f ∈ fl ∧ f.IsDir = false ∧
          q = Join [p, f.Name]) ∧
      (true = true → ∀ p fl, Event.list p fl ∈ out.log →
        ∀ f ∈ fl, f.Name ≠ "." → f.Name ≠ ".." →
          (f.IsDir = true → Event.walk (Join [p, f.Name]) ∈ out.log) ∧
          (f.IsDir = false → Event.call Site.fileEntry (Join [p, f.Name]) ∈ out.log)) :=
  ⟨unixOS_descends, by decide, by decide, by decide, by decide,
    C4_directories_kept unixOS unixRank unixOS_descends fooDirTree "." fooDigit "bar$1" true
      4099 (by decide)⟩

/-- Counterexample to C5: the path `a` is a file, renaming it to `b` fails
because `b` is a directory, and `BatchRename` returns the error of `Rename`,
although no listing was attempted. -/
theorem C5_counterexample :
    unixOS.ReadFile fileAndDir "a" = .ok () ∧
    BatchRename unixOS 1 fileAndDir "a" (exactly "a") "b" true true =
      some ⟨fileAndDir,
        [Event.walk "a", Event.call Site.top "a",
          Event.osRename "a" "b" (some OSError.EEXIST),
          Event.print "\nRename file error: [a -> b]."], 0,
        some "\nRename file error: [a -> b]."⟩ := by
  constructor <;> decide

/-- C5, amended: when the path can be read as a file, `BatchRename` returns what
`Rename` returns for it: the same count, 0 or 1, and the same error, which is nil
unless `os.Rename` failed, and then the count is 0. And `BatchRename` returns a
non-nil error only when the path was read as a file and `Rename` returned this
error, or when the path could be neither read as a file nor listed. -/
theorem C5_error_sources {σ : Type} (os : OS σ) (fs : σ) (path : String) (re : Regexp)
    (repl : String) (recursive D : Bool) :
    (∀ fuel u, os.ReadFile fs path = .ok u →
      ∃ out, BatchRename os (fuel + 1) fs path re repl recursive D = some out ∧
        out.fs = (Rename os fs path re repl).fs ∧ out.n = (Rename os fs path re repl).n ∧
        out.err = (Rename os fs path re repl).err ∧ out.n ≤ 1 ∧
        (out.err = none ∨
          ∃ e, os.Rename fs path
              (Join [(Split path).1, re.ReplaceAllString (Split path).2 repl]) = .error e ∧
            out.n = 0 ∧
            out.err = some (renameError (Split path).2
              (re.ReplaceAllString (Split path).2 repl)))) ∧
    (∀ fuel out, BatchRename os fuel fs path re repl recursive D = some out →
      out.err ≠ none →
      (∃ u, os.ReadFile fs path = .ok u ∧ out.err = (Rename os fs path re repl).err) ∨
      (∃ e0 e, os.ReadFile fs path = .error e0 ∧ os.ReadDir fs path = .error e)) := by
  constructor
  · intro fuel u hu
    refine ⟨_, BatchRename_file os fuel fs path re repl recursive D u hu, rfl, rfl, rfl, ?_, ?_⟩
    · rcases Rename_cases os fs path re repl with h | ⟨e, _, h⟩ | ⟨fs2, _, h⟩ <;> simp [h]
    · rcases Rename_cases os fs path re repl with h | ⟨e, he, h⟩ | ⟨fs2, _, h⟩
      · left; simp [h]
      · right; exact ⟨e, he, by simp [h], by simp [h]⟩
      · left; simp [h]
  · intro fuel out hout herr
    cases fuel with
    | zero => simp [BatchRename] at hout
    | succ fuel =>
      cases hf : os.ReadFile fs path with
      | ok u =>
        rw [BatchRename_file os fuel fs path re repl recursive D u hf] at hout
        cases hout
        exact Or.inl ⟨u, rfl, rfl⟩
      | error e0 =>
        cases hd : os.ReadDir fs path with
        | error e => exact Or.inr ⟨e0, e, rfl, rfl⟩
        | ok files =>
          rw [BatchRename_dir os fuel fs path re repl recursive D e0 files hf hd] at hout
          cases hw : walkEntries os
              (fun fs2 path2 => BatchRename os fuel fs2 path2 re repl recursive D)
              path re repl recursive D files
              ⟨fs, [Event.walk path, Event.list path files], 0⟩ with
          | none => simp [hw] at hout
          | some a =>
            simp only [hw, Option.map_some', Option.some.injEq] at hout
            rw [← hout] at herr
            exact absurd rfl herr

/-- Witness of C5: the file `a` next to the directory `b`, renamed to `b`. -/
theorem C5_error_sources_witness :
    (unixOS.ReadFile fileAndDir "a" = .ok () ∧
      ∃ out, BatchRename unixOS (0 + 1) fileAndDir "a" (exactly "a") "b" true true = some out ∧
        out.fs = (Rename unixOS fileAndDir "a" (exactly "a") "b").fs ∧
        out.n = (Rename unixOS fileAndDir "a" (exactly "a") "b").n ∧
        out.err = (Rename unixOS fileAndDir "a" (exactly "a") "b").err ∧ out.n ≤ 1 ∧
        (out.err = none ∨
          ∃ e, unixOS.Rename fileAndDir "a"
              (Join [(Split "a").1, (exactly "a").ReplaceAllString (Split "a").2 "b"])
                = .error e ∧
            out.n = 0 ∧
            out.err = some (renameError (Split "a").2
              ((exactly "a").ReplaceAllString (Split "a").2 "b")))) ∧
    (BatchRename unixOS 1 treeABC "nope" (exactly "a") "b" true true =
        some ⟨treeABC, [Event.walk "nope"], 0, some "Not Exist: nope"⟩ ∧
      ((∃ u, unixOS.ReadFile treeABC "nope" = .ok u ∧
          (some "Not Exist: nope" : Option String) =
            (Rename unixOS treeABC "nope" (exactly "a") "b").err) ∨
        (∃ e0 e, unixOS.ReadFile treeABC "nope" = .error e0 ∧
          unixOS.ReadDir treeABC "nope" = .error e))) :=
  ⟨⟨by decide,
      (C5_error_sources unixOS fileAndDir "a" (exactly "a") "b" true true).1 0 ()
        (by decide)⟩,
    ⟨by decide,
      (C5_error_sources unixOS treeABC "nope" (exactly "a") "b" true true).2 1
        ⟨treeABC, [Event.walk "nope"], 0, some "Not Exist: nope"⟩ (by decide) (by simp)⟩⟩

/-- The two messages of a failed listing are different. -/
theorem notExist_ne_readDirError (path : String) :
    "Not Exist: " ++ path ≠ "ReadDir Error: " ++ path := by
  intro h
  have := congrArg String.data h
  simp at this

/-- C6: when the path can be neither read as a file nor listed, `BatchRename`
makes no call of `os.Rename`, leaves the file system as it is and returns the
count 0 with an error that names the path: `Not Exist: ` and the path exactly
when the listing failed because the path does not exist, `ReadDir Error: ` and
the path for every other failure of the listing. -/
theorem C6_listing_failure {σ : Type} (os : OS σ) (fuel : Nat) (fs : σ) (path : String)
    (re : Regexp) (repl : String) (recursive D : Bool) (e0 e : OSError)
    (hf : os.ReadFile fs path = .error e0) (hd : os.ReadDir fs path = .error e) :
    ∃ msg, BatchRename os (fuel + 1) fs path re repl recursive D =
        some ⟨fs, [Event.walk path], 0, some msg⟩ ∧
      (e = OSError.ENOENT → msg = "Not Exist: " ++ path) ∧
      (e ≠ OSError.ENOENT → msg = "ReadDir Error: " ++ path) ∧
      (msg = "Not Exist: " ++ path ↔ e = OSError.ENOENT) := by
  refine ⟨_, BatchRename_nodir os fuel fs path re repl recursive D e0 e hf hd, ?_, ?_, ?_⟩
  · intro he
    simp [he, IsNotExist]
  · intro he
    simp [he, IsNotExist]
  · by_cases he : e = OSError.ENOENT
    · simp [he, IsNotExist]
    · simp only [IsNotExist, beq_iff_eq, he, if_false, iff_false]
      exact fun h => notExist_ne_readDirError path h.symm

/-- Witness of C6: a path that does not exist, and a path through a file. -/
theorem C6_listing_failure_witness :
    (unixOS.ReadFile treeABC "nope" = .error OSError.ENOENT ∧
      unixOS.ReadDir treeABC "nope" = .error OSError.ENOENT ∧
      ∃ msg, BatchRename unixOS (0 + 1) treeABC "nope" fooDigit "bar$1" true true =
          some ⟨treeABC, [Event.walk "nope"], 0, some msg⟩ ∧
        (OSError.ENOENT = OSError.ENOENT → msg = "Not Exist: " ++ "nope") ∧
        (OSError.ENOENT ≠ OSError.ENOENT → msg = "ReadDir Error: " ++ "nope") ∧
        (msg = "Not Exist: " ++ "nope" ↔ OSError.ENOENT = OSError.ENOENT)) ∧
    (unixOS.ReadFile treeABC "a/b/c.txt/" = .error OSError.ENOTDIR ∧
      unixOS.ReadDir treeABC "a/b/c.txt/" = .error OSError.ENOTDIR ∧
      ∃ msg, BatchRename unixOS (0 + 1) treeABC "a/b/c.txt/" fooDigit "bar$1" true true =
          some ⟨treeABC, [Event.walk "a/b/c.txt/"], 0, some msg⟩ ∧
        (OSError.ENOTDIR = OSError.ENOENT → msg = "Not Exist: " ++ "a/b/c.txt/") ∧
        (OSError.ENOTDIR ≠ OSError.ENOENT → msg = "ReadDir Error: " ++ "a/b/c.txt/") ∧
        (msg = "Not Exist: " ++ "a/b/c.txt/" ↔ OSError.ENOTDIR = OSError.ENOENT)) :=
  ⟨⟨by decide, by decide,
      C6_listing_failure unixOS 0 treeABC "nope" fooDigit "bar$1" true true
        OSError.ENOENT OSError.ENOENT (by decide) (by decide)⟩,
    ⟨by decide, by decide,
      C6_listing_failure unixOS 0 treeABC "a/b/c.txt/" fooDigit "bar$1" true true
        OSError.ENOTDIR OSError.ENOTDIR (by decide) (by decide)⟩⟩

/-- Counterexample to C7: the file `d/f` with the substituted name `../g` is
renamed to `g`, outside of its parent directory `d`; with the empty substituted
name the destination is the parent directory `d` itself, and with `..` it is the
parent of `d`. -/
theorem C7_counterexample :
    (exactly "f").ReplaceAllString (Split "d/f").2 "../g" = "../g" ∧
    Rename unixOS treeDF "d/f" (exactly "f") "../g" =
      ⟨[(["d"], directory), (["g"], regularFile)], [Event.osRename "d/f" "g" none], 1, none⟩ ∧
    unixOS.ReadDir [(["d"], directory), (["g"], regularFile)] "d" = .ok [] ∧
    unixOS.ReadFile [(["d"], directory), (["g"], regularFile)] "g" = .ok () ∧
    Clean (Split "g").1 ≠ Clean (Split "d/f").1 ∧
    (Rename unixOS treeDF "d/f" (exactly "f") "").log =
      [Event.osRename "d/f" "d" (some OSError.EEXIST)] ∧
    (Rename unixOS treeDF "d/f" (exactly "f") "..").log =
      [Event.osRename "d/f" "." (some OSError.EEXIST)] := by
  refine ⟨?_, ?_, ?_, ?_, ?_, ?_, ?_⟩ <;> decide

/-- C7, amended: `Rename` changes the file system by at most one call of
`os.Rename`, whose source is the given path and whose destination is
`filepath.Join` of the directory part of the path and the substituted name. When
the substituted name is a plain file name (not empty, not `.` or `..`, without
separator), this destination has the substituted name as its file name and its
directory part denotes the parent directory of the source. -/
theorem C7_Rename_destination {σ : Type} (os : OS σ) (fs : σ) (path : String)
    (re : Regexp) (repl : String) :
    (Rename os fs path re repl = ⟨fs, [], 0, none⟩ ∨
      (∃ e, os.Rename fs path
            (Join [(Split path).1, re.ReplaceAllString (Split path).2 repl]) = .error e ∧
        Rename os fs path re repl =
          ⟨fs, [Event.osRename path
              (Join [(Split path).1, re.ReplaceAllString (Split path).2 repl]) (some e)], 0,
            some (renameError (Split path).2 (re.ReplaceAllString (Split path).2 repl))⟩) ∨
      (∃ fs2, os.Rename fs path
            (Join [(Split path).1, re.ReplaceAllString (Split path).2 repl]) = .ok fs2 ∧
        Rename os fs path re repl =
          ⟨fs2, [Event.osRename path
              (Join [(Split path).1, re.ReplaceAllString (Split path).2 repl]) none],
            1, none⟩)) ∧
    (PlainName (re.ReplaceAllString (Split path).2 repl) →
      (Split (Join [(Split path).1, re.ReplaceAllString (Split path).2 repl])).2 =
        re.ReplaceAllString (Split path).2 repl ∧
      Clean (Split (Join [(Split path).1, re.ReplaceAllString (Split path).2 repl])).1 =
        Clean (Split path).1) :=
  ⟨Rename_cases os fs path re repl,
    fun h => Split_Join_plain (Split path).1 (re.ReplaceAllString (Split path).2 repl) h⟩

/-- Witness of C7: `d/foo1.txt` is renamed to `d/bar1.txt`, in the same
directory. -/
theorem C7_Rename_destination_witness :
    PlainName (fooDigit.ReplaceAllString (Split "d/foo1.txt").2 "bar$1") ∧
    (Split (Join [(Split "d/foo1.txt").1,
        fooDigit.ReplaceAllString (Split "d/foo1.txt").2 "bar$1"])).2 = "bar1.txt" ∧
    (Split (Join [(Split "d/foo1.txt").1,
        fooDigit.ReplaceAllString (Split "d/foo1.txt").2 "bar$1"])).1 = "d/" ∧
    ((Split (Join [(Split "d/foo1.txt").1,
          fooDigit.ReplaceAllString (Split "d/foo1.txt").2 "bar$1"])).2 =
        fooDigit.ReplaceAllString (Split "d/foo1.txt").2 "bar$1" ∧
      Clean (Split (Join [(Split "d/foo1.txt").1,
          fooDigit.ReplaceAllString (Split "d/foo1.txt").2 "bar$1"])).1 =
        Clean (Split "d/foo1.txt").1) :=
  ⟨by decide, by decide, by decide,
    (C7_Rename_destination unixOS fooTree "d/foo1.txt" fooDigit "bar$1").2 (by decide)⟩

/-- Counterexample to C8: renaming `a` to `b` fails with `EEXIST` when `b` is a
directory and with `ENOTDIR` when `a` is a directory and `b` a file, and `Rename`
returns the same failure in both cases. -/
theorem C8_counterexample :
    Rename unixOS fileAndDir "a" (exactly "a") "b" =
      ⟨fileAndDir, [Event.osRename "a" "b" (some OSError.EEXIST)], 0,
        some "\nRename file error: [a -> b]."⟩ ∧
    Rename unixOS dirAndFile "a" (exactly "a") "b" =
      ⟨dirAndFile, [Event.osRename "a" "b" (some OSError.ENOTDIR)], 0,
        some "\nRename file error: [a -> b]."⟩ ∧
    OSError.EEXIST ≠ OSError.ENOTDIR ∧
    (Rename unixOS fileAndDir "a" (exactly "a") "b").err =
      (Rename unixOS dirAndFile "a" (exactly "a") "b").err := by
  refine ⟨?_, ?_, ?_, ?_⟩ <;> decide

/-- C8, amended: when the base name matches, the substituted name differs and
`os.Rename` fails, `Rename` leaves the file system as it is and returns the
count 0 and a failure that carries the original name and the new name only: its
message is the same for every error of the operating system. -/
theorem C8_Rename_failure {σ : Type} (os : OS σ) (fs : σ) (path : String) (re : Regexp)
    (repl : String) (e : OSError) (hm : re.Match (Split path).2 = true)
    (hne : re.ReplaceAllString (Split path).2 repl ≠ (Split path).2)
    (h : os.Rename fs path (Join [(Split path).1, re.ReplaceAllString (Split path).2 repl])
      = .error e) :
    (Rename os fs path re repl).fs = fs ∧ (Rename os fs path re repl).n = 0 ∧
    (Rename os fs path re repl).log =
      [Event.osRename path
        (Join [(Split path).1, re.ReplaceAllString (Split path).2 repl]) (some e)] ∧
    (Rename os fs path re repl).err =
      some ("\nRename file error: [" ++ (Split path).2 ++ " -> " ++
        re.ReplaceAllString (Split path).2 repl ++ "].") := by
  rw [Rename_fail os fs path re repl e hm hne h]
  exact ⟨rfl, rfl, rfl, rfl⟩

/-- Witness of C8: the file `a` renamed to the name of the directory `b`. -/
theorem C8_Rename_failure_witness :
    (exactly "a").Match (Split "a").2 = true ∧
    (exactly "a").ReplaceAllString (Split "a").2 "b" ≠ (Split "a").2 ∧
    unixOS.Rename fileAndDir "a"
      (Join [(Split "a").1, (exactly "a").ReplaceAllString (Split "a").2 "b"])
      = .error OSError.EEXIST ∧
    ((Rename unixOS fileAndDir "a" (exactly "a") "b").fs = fileAndDir ∧
      (Rename unixOS fileAndDir "a" (exactly "a") "b").n = 0 ∧
      (Rename unixOS fileAndDir "a" (exactly "a") "b").log =
        [Event.osRename "a"
          (Join [(Split "a").1, (exactly "a").ReplaceAllString (Split "a").2 "b"])
          (some OSError.EEXIST)] ∧
      (Rename unixOS fileAndDir "a" (exactly "a") "b").err =
        some ("\nRename file error: [" ++ (Split "a").2 ++ " -> " ++
          (exactly "a").ReplaceAllString (Split "a").2 "b" ++ "].")) :=
  ⟨by decide, by decide, by decide,
    C8_Rename_failure unixOS fileAndDir "a" (exactly "a") "b" OSError.EEXIST
      (by decide) (by decide) (by decide)⟩

/-- C9 on the code: when the pattern given with `-s` does not compile, the
process prints `Bad regular expression!`, calls `BatchRename` on no path, leaves
the file system as it is, and ends with the exit status 0, because `main`
returns. -/
theorem C9_bad_pattern_status {σ : Type} (compile : String → Option Regexp) (os : OS σ)
    (fuel : Nat) (flags : Flags) (fs : σ) (hc : compile flags.src = none)
    (hs : ¬(flags.src = "" ∧ flags.repl = "")) :
    run compile os fuel flags fs = some ⟨fs, [Event.print "Bad regular expression!"], 0⟩ := by
  simp [run, init, hs, main, hc]

/-- Witness of C9: the command line `-s "(" -r x`. -/
theorem C9_bad_pattern_status_witness :
    compileExamples "(" = none ∧ ¬(("(" : String) = "" ∧ ("x" : String) = "") ∧
    run compileExamples unixOS 4099 ⟨"(", "x", true, true, []⟩ fooTree =
      some ⟨fooTree, [Event.print "Bad regular expression!"], 0⟩ ∧
    run compileExamples unixOS 4099 ⟨"", "", true, true, []⟩ fooTree =
      some ⟨fooTree, [Event.usage], 2⟩ :=
  ⟨rfl, by decide,
    C9_bad_pattern_status compileExamples unixOS 4099 ⟨"(", "x", true, true, []⟩ fooTree
      rfl (by decide),
    by decide⟩

/-- Counterexample to C10: the directory `a` cannot be listed. With recursion
enabled its walk reports an error and `Rename` is not applied to it, so that it
keeps its name; with recursion disabled it is renamed to `x`. -/
theorem C10_counterexample :
    unixOS.ReadDir lockedTree "." = .ok [⟨"a", true⟩] ∧
    BatchRename unixOS 2 lockedTree "." (exactly "a") "x" true true =
      some ⟨lockedTree,
        [Event.walk ".", Event.list "." [⟨"a", true⟩], Event.walk "a",
          Event.print "ReadDir Error: a"], 0, none⟩ ∧
    BatchRename unixOS 2 lockedTree "." (exactly "a") "x" false true =
      some ⟨[(["x"], lockedDirectory)],
        [Event.walk ".", Event.list "." [⟨"a", true⟩],
          Event.call Site.dirEntry "a", Event.osRename "a" "x" none], 1, none⟩ := by
  refine ⟨?_, ?_, ?_⟩ <;> decide

/-- C10, amended: with directory renaming enabled, in the walk of a directory
(given more fuel than its rank in a system of bounded nesting), each
subdirectory entry of the snapshot is handled as follows, from the state `a0`
left by the entries before it to the state `a1` given to the entries after it.
Without recursion, `Rename` is applied to the entry once, in the state `a0`.
With recursion, the subdirectory is walked first; if this walk returned no
error, `Rename` is applied to the entry once, in the state left by the walk; if
it returned an error, the error is printed and `Rename` is not applied to the
entry. -/
theorem C10_directory_entry_rename {σ : Type} (os : OS σ) (rank : String → Nat)
    (hdesc : Descends os rank) (fuel : Nat) (fs : σ) (path : String) (re : Regexp)
    (repl : String) (recursive : Bool) (e0 : OSError) (pre post : List FileInfo) (f : FileInfo)
    (hf : os.ReadFile fs path = .error e0) (hd : os.ReadDir fs path = .ok (pre ++ f :: post))
    (hdir : f.IsDir = true) (h1 : f.Name ≠ ".") (h2 : f.Name ≠ "..")
    (hfuel : rank path < fuel + 1) :
    ∃ out a0 a1,
      BatchRename os (fuel + 1) fs path re repl recursive true = some out ∧
      walkEntries os (fun fs2 path2 => BatchRename os fuel fs2 path2 re repl recursive true)
        path re repl recursive true pre
        ⟨fs, [Event.walk path, Event.list path (pre ++ f :: post)], 0⟩ = some a0 ∧
      walkEntries os (fun fs2 path2 => BatchRename os fuel fs2 path2 re repl recursive true)
        path re repl recursive true post a1 = some ⟨out.fs, out.log, out.n⟩ ∧
      (recursive = false →
        a1 = renameEntry os Site.dirEntry (Join [path, f.Name]) re repl a0 ∧
        a1.log.count (Event.call Site.dirEntry (Join [path, f.Name])) =
          a0.log.count (Event.call Site.dirEntry (Join [path, f.Name])) + 1) ∧
      (recursive = true →
        ∃ r, BatchRename os fuel a0.fs (Join [path, f.Name]) re repl recursive true = some r ∧
          (r.err = none →
            a1 = renameEntry os Site.dirEntry (Join [path, f.Name]) re repl
              ⟨r.fs, a0.log ++ r.log, a0.n + r.n⟩ ∧
            a1.log.count (Event.call Site.dirEntry (Join [path, f.Name])) =
              (a0.log ++ r.log).count (Event.call Site.dirEntry (Join [path, f.Name])) + 1) ∧
          (∀ e, r.err = some e →
            a1 = ⟨r.fs, a0.log ++ r.log ++ [Event.print e], a0.n⟩ ∧
            a1.log.count (Event.call Site.dirEntry (Join [path, f.Name])) =
              (a0.log ++ r.log).count (Event.call Site.dirEntry (Join [path, f.Name])))) := by
  obtain ⟨out, hout⟩ :=
    BatchRename_total os rank hdesc re repl recursive true (fuel + 1) fs path hfuel
  obtain ⟨a0, a1, hpre, hv, hpost, _⟩ :=
    walk_split os fuel fs path re repl recursive true e0 pre post f hf hd out hout
  have hcount : ∀ b : Acc σ,
      (renameEntry os Site.dirEntry (Join [path, f.Name]) re repl b).log.count
          (Event.call Site.dirEntry (Join [path, f.Name])) =
        b.log.count (Event.call Site.dirEntry (Join [path, f.Name])) + 1 := by
    intro b
    rcases renameEntry_cases os Site.dirEntry (Join [path, f.Name]) re repl b with
      h | ⟨e, dst, msg, h⟩ | ⟨fs2, dst, h⟩ <;>
      simp [h, List.count_cons]
  refine ⟨out, a0, a1, hout, hpre, hpost, ?_, ?_⟩
  · intro hrec
    cases hv with
    | dot hdot => rcases hdot with h | h <;> contradiction
    | file _ _ hnd => rw [hdir] at hnd; cases hnd
    | flatRename _ _ _ _ _ => exact ⟨rfl, hcount a0⟩
    | flatSkip _ _ _ _ hD => cases hD
    | subError r e _ _ _ hrec2 hs hre => rw [hrec] at hrec2; cases hrec2
    | subRename r _ _ _ hrec2 hs hre _ => rw [hrec] at hrec2; cases hrec2
    | subOnly r _ _ _ _ hs hre hD => cases hD
  · intro hrec
    cases hv with
    | dot hdot => rcases hdot with h | h <;> contradiction
    | file _ _ hnd => rw [hdir] at hnd; cases hnd
    | flatRename _ _ _ hrec2 _ => rw [hrec] at hrec2; cases hrec2
    | flatSkip _ _ _ _ hD => cases hD
    | subError r e _ _ _ _ hs hre =>
      refine ⟨r, hs, (fun h => by rw [hre] at h; cases h), ?_⟩
      intro e2 he2
      rw [hre] at he2
      cases he2
      exact ⟨rfl, by simp [List.count_cons]⟩
    | subRename r _ _ _ _ hs hre _ =>
      refine ⟨r, hs, fun _ => ⟨rfl, hcount _⟩, ?_⟩
      intro e2 he2
      rw [hre] at he2
      cases he2
    | subOnly r _ _ _ _ hs hre hD => cases hD

/-- Witness of C10: the walk of the parent of the directory `a`, which cannot be
listed, with recursion enabled. -/
theorem C10_directory_entry_rename_witness :
    Descends unixOS unixRank ∧
    unixOS.ReadFile lockedTree "." = .error OSError.EISDIR ∧
    unixOS.ReadDir lockedTree "." = .ok ([] ++ (⟨"a", true⟩ : FileInfo) :: []) ∧
    unixRank "." < 4098 + 1 ∧
    ∃ out a0 a1,
      BatchRename unixOS (4098 + 1) lockedTree "." (exactly "a") "x" true true = some out ∧
      walkEntries unixOS
        (fun fs2 path2 => BatchRename unixOS 4098 fs2 path2 (exactly "a") "x" true true)
        "." (exactly "a") "x" true true []
        ⟨lockedTree, [Event.walk ".", Event.list "." ([] ++ (⟨"a", true⟩ : FileInfo) :: [])], 0⟩
          = some a0 ∧
      walkEntries unixOS
        (fun fs2 path2 => BatchRename unixOS 4098 fs2 path2 (exactly "a") "x" true true)
        "." (exactly "a") "x" true true [] a1 = some ⟨out.fs, out.log, out.n⟩ ∧
      (true = false →
        a1 = renameEntry unixOS Site.dirEntry (Join [".", "a"]) (exactly "a") "x" a0 ∧
        a1.log.count (Event.call Site.dirEntry (Join [".", "a"])) =
          a0.log.count (Event.call Site.dirEntry (Join [".", "a"])) + 1) ∧
      (true = true →
        ∃ r, BatchRename unixOS 4098 a0.fs (Join [".", "a"]) (exactly "a") "x" true true
            = some r ∧
          (r.err = none →
            a1 = renameEntry unixOS Site.dirEntry (Join [".", "a"]) (exactly "a") "x"
              ⟨r.fs, a0.log ++ r.log, a0.n + r.n⟩ ∧
            a1.log.count (Event.call Site.dirEntry (Join [".", "a"])) =
              (a0.log ++ r.log).count (Event.call Site.dirEntry (Join [".", "a"])) + 1) ∧
          (∀ e, r.err = some e →
            a1 = ⟨r.fs, a0.log ++ r.log ++ [Event.print e], a0.n⟩ ∧
            a1.log.count (Event.call Site.dirEntry (Join [".", "a"])) =
              (a0.log ++ r.log).count (Event.call Site.dirEntry (Join [".", "a"])))) :=
  ⟨unixOS_descends, by decide, by decide, by decide,
    C10_directory_entry_rename unixOS unixRank unixOS_descends 4098 lockedTree "."
      (exactly "a") "x" true OSError.EISDIR [] [] ⟨"a", true⟩
      (by decide) (by decide) rfl (by decide) (by decide) (by decide)⟩

end Brename
